import Mathlib

/-!
Verification of the prettier-style JSON formatter in `src/misc/format_json.py`
(`format_json_prettier` and its inner `format_value`).

The formatter is shallowly embedded: Python values become the inductive type
`Value` (numbers are modelled as integers; Python float rendering is bit-level
floating-point behaviour and is outside this embedding), Python strings become
Lean strings (sequences of Unicode scalar values), and `json.dumps` on the
scalars, scalar lists and keys that the script passes to it is modelled
character by character, including `ensure_ascii` escaping with surrogate
pairs.  A standard JSON parser (the Python `json.loads`, which the repository
uses only implicitly through the round-trip property of the spec) is modelled from
the spec as a fuel-indexed recursive-descent parser over character lists.
-/

namespace FormatJson

/-- JSON-like values: the tagged union described by the data model of the spec.
Mappings are insertion-ordered lists of key/value pairs, as Python dicts are. -/
inductive Value where
  | null
  | bool (b : Bool)
  | num (n : Int)
  | str (s : String)
  | arr (elems : List Value)
  | obj (entries : List (String × Value))
deriving Repr, Inhabited

/-- Lowercase hexadecimal digit character for `n < 16`, as produced by
CPython string formatting with a four-digit lowercase hex conversion in
`json.encoder`. -/
def hexDigitChar (n : Nat) : Char :=
  if n < 10 then Char.ofNat (48 + n) else Char.ofNat (87 + n)

/-- The four hex digits of `n` (taken mod 0x10000), most significant first:
the `XXXX` of a `\\uXXXX` escape. -/
def hex4 (n : Nat) : List Char :=
  [hexDigitChar (n / 4096 % 16), hexDigitChar (n / 256 % 16),
   hexDigitChar (n / 16 % 16), hexDigitChar (n % 16)]

/-- Escape sequence emitted for one character by `json.dumps`.
With `ensureAscii = false` (the `ensure_ascii=False` calls of the script) only
the quote, the backslash and control characters below 0x20 are escaped;
with `ensureAscii = true` (bare `json.dumps(k)` on mapping keys) every
character outside 0x20..0x7e is escaped as well, non-BMP characters as a
surrogate pair.  Mirrors `ESCAPE_DCT` / `ESCAPE_ASCII` of `json.encoder`. -/
def escSeq (ensureAscii : Bool) (c : Char) : List Char :=
  if c = '"' then ['\\', '"']
  else if c = '\\' then ['\\', '\\']
  else if c = Char.ofNat 8 then ['\\', 'b']
  else if c = Char.ofNat 12 then ['\\', 'f']
  else if c = '\n' then ['\\', 'n']
  else if c = Char.ofNat 13 then ['\\', 'r']
  else if c = '\t' then ['\\', 't']
  else if c.toNat < 0x20 then '\\' :: 'u' :: hex4 c.toNat
  else if ensureAscii && 0x7e < c.toNat then
    if c.toNat < 0x10000 then '\\' :: 'u' :: hex4 c.toNat
    else
      '\\' :: 'u' :: hex4 (0xd800 + (c.toNat - 0x10000) / 0x400) ++
        '\\' :: 'u' :: hex4 (0xdc00 + (c.toNat - 0x10000) % 0x400)
  else [c]

/-- Encoding of a Python string by `json.dumps`: double quotes around the
escaped characters. -/
def encodeStr (ensureAscii : Bool) (s : String) : String :=
  ⟨'"' :: (s.data.flatMap (escSeq ensureAscii)) ++ ['"']⟩

/-- Decimal digits of `n`, most significant first, with `fuel` bounding the
recursion (any `fuel > n` is enough).  Canonical decimal as printed by
the Python int repr. -/
def natDigitsAux (fuel : Nat) (n : Nat) : List Char :=
  match fuel with
  | 0 => []
  | fuel + 1 =>
      if n < 10 then [Char.ofNat (48 + n)]
      else natDigitsAux fuel (n / 10) ++ [Char.ofNat (48 + n % 10)]

/-- Decimal rendering of a natural number. -/
def natRepr (n : Nat) : String := ⟨natDigitsAux (n + 1) n⟩

/-- Decimal rendering of an integer, `-` prefix for negatives: the output of
`json.dumps` on a Python int. -/
def intRepr (n : Int) : String :=
  if n < 0 then "-" ++ natRepr n.natAbs else natRepr n.natAbs

/-- Test `isinstance(x, (str, int, float, bool, type(None)))` used by
`format_value`: true exactly on the scalar variants. -/
def isScalar : Value → Bool
  | .null | .bool _ | .num _ | .str _ => true
  | .arr _ | .obj _ => false

/-- Rendering `json.dumps(value, ensure_ascii=False)` of a scalar, as in the
last line of `format_value`.  (The script only ever passes scalars here; the container
arms are unreachable in its use.) -/
def dumpScalar : Value → String
  | .null => "null"
  | .bool true => "true"
  | .bool false => "false"
  | .num n => intRepr n
  | .str s => encodeStr false s
  | .arr _ => ""
  | .obj _ => ""

/-- Join a list of strings with a separator, like the Python `sep.join`. -/
def joinSep (sep : String) : List String → String
  | [] => ""
  | [l] => l
  | l :: ls => l ++ sep ++ joinSep sep ls

/-- Rendering `json.dumps(v, ensure_ascii=False)` of a list of scalars:
bracketed, separated by a comma and a space (the CPython default item
separator). -/
def dumpsList (es : List Value) : String :=
  "[" ++ joinSep ", " (es.map dumpScalar) ++ "]"

/-- Indentation: a run of `n` spaces. -/
def spaces (n : Nat) : String := ⟨List.replicate n ' '⟩

/-- The override applied to an already formatted mapping entry value
(`format_value` lines 23-28): if the value is a list whose elements are all
scalars and its compact `json.dumps` rendering fits in
`maxLen - ci - len(k) - 5` (Python integer arithmetic, so the budget may go
negative), that compact rendering replaces `fv`. -/
def entryOverride (maxLen ci : Nat) (k : String) (v : Value) (fv : String) : String :=
  match v with
  | .arr es =>
      if es.all isScalar ∧
          ((dumpsList es).length : Int) ≤ (maxLen : Int) - (ci : Int) - (k.length : Int) - 5
      then dumpsList es else fv
  | _ => fv

mutual

/-- Shallow embedding of the inner `format_value(value, current_indent)` of
`format_json_prettier`, with the closed-over `indent` and `max_line_length`
passed explicitly. -/
def formatValue (indentW maxLen : Nat) : Value → Nat → String
  | .obj kvs, ci =>
      if kvs.isEmpty then "\x7b\x7d"
      else
        joinSep "\n" ("\x7b" :: objLines indentW maxLen ci kvs ++ [spaces ci ++ "\x7d"])
  | .arr es, ci =>
      if es.isEmpty then "[]"
      else if es.all isScalar ∧ (dumpsList es).length ≤ maxLen then dumpsList es
      else joinSep "\n" ("[" :: arrLines indentW maxLen ci es ++ [spaces ci ++ "]"])
  | v, _ => dumpScalar v

/-- The lines appended for the items of a non-empty list that is not inlined
(`format_value` lines 45-52): each item formatted at `ci + indentW`, indented,
with a trailing comma on all but the last. -/
def arrLines (indentW maxLen ci : Nat) : List Value → List String
  | [] => []
  | v :: rest =>
      (spaces (ci + indentW) ++ formatValue indentW maxLen v (ci + indentW) ++
        (if rest.isEmpty then "" else ",")) :: arrLines indentW maxLen ci rest

/-- The lines appended for the entries of a non-empty mapping
(`format_value` lines 16-31): the `json.dumps(k)` key (ASCII-escaped), a
colon and space, the entry value after the compact-array override, and a
trailing comma on all but the last. -/
def objLines (indentW maxLen ci : Nat) : List (String × Value) → List String
  | [] => []
  | (k, v) :: rest =>
      (spaces (ci + indentW) ++ encodeStr true k ++ ": " ++
        entryOverride maxLen ci k v (formatValue indentW maxLen v (ci + indentW)) ++
        (if rest.isEmpty then "" else ",")) :: objLines indentW maxLen ci rest

end

/-- Shallow embedding of `format_json_prettier(obj, indent=2, max_line_length=80)`;
the two keyword options (defaulting to 2 and 80 in the script) are passed
explicitly. -/
def format_json_prettier (obj : Value) (indent max_line_length : Nat) : String :=
  formatValue indent max_line_length obj 0

/-! ### A JSON parser, modelled from the spec

The round-trip and idempotence properties of the spec compose the formatter
with `parse`, which in the repository is the Python standard-library `json.loads`
(not part of the source tree).  The parser below is modelled from the spec's
description of that inverse: a standard JSON reader that skips whitespace
between tokens and reproduces the original structure.  Features outside the
value model of the embedding are rejected rather than approximated: fractional or
exponent number forms (floats) and lone-surrogate escapes (not representable
as Lean characters) return `none`; neither can occur in formatter output. -/
/-- JSON insignificant whitespace: space, tab, line feed, carriage return. -/
def isWs (c : Char) : Bool :=
  c = ' ' || c = '\t' || c = '\n' || c = Char.ofNat 13

/-- Drop leading whitespace. -/
def skipWs : List Char → List Char
  | [] => []
  | c :: cs => if isWs c then skipWs cs else c :: cs

/-- Value of one hexadecimal digit, either case. -/
def hexVal (c : Char) : Option Nat :=
  if '0' ≤ c ∧ c ≤ '9' then some (c.toNat - 48)
  else if 'a' ≤ c ∧ c ≤ 'f' then some (c.toNat - 87)
  else if 'A' ≤ c ∧ c ≤ 'F' then some (c.toNat - 55)
  else none

/-- Character denoted by a single-character escape (`\"`, `\\`, `\/`, `\b`,
`\f`, `\n`, `\r`, `\t`). -/
def unescape1 (c : Char) : Option Char :=
  if c = '"' then some '"'
  else if c = '\\' then some '\\'
  else if c = '/' then some '/'
  else if c = 'b' then some (Char.ofNat 8)
  else if c = 'f' then some (Char.ofNat 12)
  else if c = 'n' then some '\n'
  else if c = 'r' then some (Char.ofNat 13)
  else if c = 't' then some '\t'
  else none

mutual

/-- Scan a JSON string body after the opening quote, returning the decoded
characters and the text after the closing quote.  `\uXXXX` escapes are
decoded, with a high/low surrogate pair combined into one character; a lone
surrogate escape is refused (a Lean `Char` cannot hold it).  Unescaped
control characters are refused, as in strict-mode `json.loads`. -/
def parseStringBody : List Char → Option (List Char × List Char)
  | [] => none
  | c0 :: rest0 =>
      if c0 = '"' then some ([], rest0)
      else if c0 = '\\' then parseEscape rest0
      else if c0.toNat < 0x20 then none
      else (parseStringBody rest0).map (fun p => (c0 :: p.1, p.2))

/-- Decode the text following a backslash inside a string body. -/
def parseEscape : List Char → Option (List Char × List Char)
  | 'u' :: a :: b :: c :: d :: rest2 =>
      match hexVal a, hexVal b, hexVal c, hexVal d with
      | some ha, some hb, some hc, some hd =>
          let n := ((ha * 16 + hb) * 16 + hc) * 16 + hd
          if 0xd800 ≤ n ∧ n ≤ 0xdbff then parseLowSurrogate n rest2
          else if 0xdc00 ≤ n ∧ n ≤ 0xdfff then none
          else (parseStringBody rest2).map (fun p => (Char.ofNat n :: p.1, p.2))
      | _, _, _, _ => none
  | e :: rest2 =>
      match unescape1 e with
      | some c => (parseStringBody rest2).map (fun p => (c :: p.1, p.2))
      | none => none
  | [] => none

/-- After a high-surrogate `\uXXXX` escape, decode the mandatory
low-surrogate escape and combine the pair into one character. -/
def parseLowSurrogate (hi : Nat) : List Char → Option (List Char × List Char)
  | '\\' :: 'u' :: a :: b :: c :: d :: rest3 =>
      match hexVal a, hexVal b, hexVal c, hexVal d with
      | some ha, some hb, some hc, some hd =>
          let m := ((ha * 16 + hb) * 16 + hc) * 16 + hd
          if 0xdc00 ≤ m ∧ m ≤ 0xdfff then
            (parseStringBody rest3).map (fun p =>
              (Char.ofNat (0x10000 + (hi - 0xd800) * 0x400 + (m - 0xdc00)) :: p.1, p.2))
          else none
      | _, _, _, _ => none
  | _ => none

end

/-- Accumulate decimal digits, returning the value and the first non-digit
suffix. -/
def parseDigits : List Char → Nat → Nat × List Char
  | [], acc => (acc, [])
  | c :: cs, acc =>
      if c.isDigit then parseDigits cs (acc * 10 + (c.toNat - 48)) else (acc, c :: cs)

/-- After the digits of an integer, a fraction or exponent marker would make
the number a float, which the value model cannot represent: refuse it. -/
def intStop : List Char → Bool
  | [] => true
  | c :: _ => !(c = '.' || c = 'e' || c = 'E')

/-- Scan an unsigned JSON integer (with the leading-zero restriction),
refusing float forms. -/
def parseIntFrom : List Char → Option (Nat × List Char)
  | [] => none
  | c :: rest =>
      if c.isDigit then
        if c = '0' then
          match rest with
          | d :: _ =>
              if d.isDigit then none
              else if intStop rest then some (0, rest) else none
          | [] => some (0, [])
        else
          let p := parseDigits rest (c.toNat - 48)
          if intStop p.2 then some (p.1, p.2) else none
      else none

mutual

/-- Parse one JSON value starting at the head of the input (no leading
whitespace), returning it with the unconsumed suffix.  `fuel` bounds the
recursion; `parse` supplies more than any input can use. -/
def parseVal : Nat → List Char → Option (Value × List Char)
  | 0, _ => none
  | fuel + 1, cs =>
      match cs with
      | 'n' :: 'u' :: 'l' :: 'l' :: rest => some (.null, rest)
      | 't' :: 'r' :: 'u' :: 'e' :: rest => some (.bool true, rest)
      | 'f' :: 'a' :: 'l' :: 's' :: 'e' :: rest => some (.bool false, rest)
      | '"' :: rest => (parseStringBody rest).map (fun p => (.str ⟨p.1⟩, p.2))
      | '[' :: rest =>
          match skipWs rest with
          | [] => none
          | c2 :: r =>
              if c2 = ']' then some (.arr [], r)
              else (parseElems fuel (c2 :: r)).map (fun p => (.arr p.1, p.2))
      | '-' :: rest =>
          (parseIntFrom rest).map (fun p => (.num (-(p.1 : Int)), p.2))
      | c :: rest =>
          if c = Char.ofNat 123 then
            match skipWs rest with
            | [] => none
            | c2 :: r =>
                if c2 = Char.ofNat 125 then some (.obj [], r)
                else (parseMembers fuel (c2 :: r)).map (fun p => (.obj p.1, p.2))
          else if c.isDigit then
            (parseIntFrom (c :: rest)).map (fun p => (.num (p.1 : Int), p.2))
          else none
      | [] => none

/-- Parse the comma-separated elements of a non-empty array, up to and
including the closing bracket. -/
def parseElems : Nat → List Char → Option (List Value × List Char)
  | 0, _ => none
  | fuel + 1, cs =>
      match parseVal fuel cs with
      | none => none
      | some (v, r) =>
          match skipWs r with
          | [] => none
          | c :: r2 =>
              if c = ',' then (parseElems fuel (skipWs r2)).map (fun p => (v :: p.1, p.2))
              else if c = ']' then some ([v], r2)
              else none

/-- Parse the comma-separated members of a non-empty object, up to and
including the closing brace.  Entries are returned in textual order, as the
insertion order of the dict `json.loads` builds. -/
def parseMembers : Nat → List Char → Option (List (String × Value) × List Char)
  | 0, _ => none
  | fuel + 1, cs =>
      match cs with
      | '"' :: cs2 =>
          match parseStringBody cs2 with
          | none => none
          | some (kl, r1) =>
              match skipWs r1 with
              | [] => none
              | c0 :: r2 =>
                  if c0 = ':' then
                    match parseVal fuel (skipWs r2) with
                    | none => none
                    | some (v, r3) =>
                        match skipWs r3 with
                        | [] => none
                        | c :: r4 =>
                            if c = ',' then
                              (parseMembers fuel (skipWs r4)).map
                                (fun p => ((⟨kl⟩, v) :: p.1, p.2))
                            else if c = Char.ofNat 125 then some ([(⟨kl⟩, v)], r4)
                            else none
                  else none
      | _ => none

end

/-- Modelled from the spec: `parse` is the Python standard-library `json.loads`
(used by the round-trip and idempotence properties of the spec but absent from the
source tree), as a whitespace-insensitive reader of the value grammar.
Trailing non-whitespace is refused, as `json.loads` refuses it. -/
def parse (s : String) : Option Value :=
  match parseVal (2 * s.length + 2) (skipWs s.data) with
  | some (v, r) => if (skipWs r).isEmpty then some v else none
  | none => none

/-! ### Decimal digit lemmas -/
/-- The digit value of a character, `c.toNat - 48`. -/
def digitVal (c : Char) : Nat := c.toNat - 48

/-- Folding the digits of a decimal string onto an accumulator. -/
def valApp (acc : Nat) (l : List Char) : Nat :=
  l.foldl (fun a c => a * 10 + digitVal c) acc

/-- The input does not continue with a digit. -/
def headNotDigit : List Char → Bool
  | [] => true
  | c :: _ => !c.isDigit

/-- No digit, dot or exponent marker follows: an integer literal ending here
is complete and is not a float form. -/
def numBoundary : List Char → Bool
  | [] => true
  | c :: _ => !(c.isDigit || c = '.' || c = 'e' || c = 'E')

/-! ### Compact (inline) array round-trip -/
/-- The character stream of a compact scalar array from after the opening
bracket through the closing bracket, followed by `rest`. -/
def compactText : List Value → List Char → List Char
  | [], rest => ']' :: rest
  | [v], rest => (dumpScalar v).data ++ ']' :: rest
  | v :: vs, rest => (dumpScalar v).data ++ ',' :: ' ' :: compactText vs rest

/-- The character stream of an expanded (one element per line) array from
after the opening bracket line break and first indent, through the closing
bracket, followed by `rest`. -/
def elemsText (iW mL ci : Nat) : List Value → List Char → List Char
  | [], rest => rest
  | [v], rest =>
      (formatValue iW mL v (ci + iW)).data ++ '\n' :: (spaces ci).data ++ ']' :: rest
  | v :: vs, rest =>
      (formatValue iW mL v (ci + iW)).data ++ ',' :: '\n' :: (spaces (ci + iW)).data ++
        elemsText iW mL ci vs rest

/-- The character stream of an expanded mapping from the first key quote
through the closing brace, followed by `rest`. -/
def membersText (iW mL ci : Nat) : List (String × Value) → List Char → List Char
  | [], rest => rest
  | [(k, v)], rest =>
      (encodeStr true k).data ++ ':' :: ' ' ::
        (entryOverride mL ci k v (formatValue iW mL v (ci + iW))).data ++
        '\n' :: (spaces ci).data ++ Char.ofNat 125 :: rest
  | (k, v) :: kvs, rest =>
      (encodeStr true k).data ++ ':' :: ' ' ::
        (entryOverride mL ci k v (formatValue iW mL v (ci + iW))).data ++
        ',' :: '\n' :: (spaces (ci + iW)).data ++ membersText iW mL ci kvs rest

/-! ### Termination with fuel equal to nesting depth -/
mutual

/-- Nesting depth of a value: number of `format_value` frames on the Python
stack when formatting it (1 for a scalar, 1 more per level of nesting). -/
def depth : Value → Nat
  | .arr es => 1 + depthList es
  | .obj kvs => 1 + depthEntries kvs
  | _ => 1

/-- Greatest depth of an element. -/
def depthList : List Value → Nat
  | [] => 0
  | v :: vs => max (depth v) (depthList vs)

/-- Greatest depth of an entry value. -/
def depthEntries : List (String × Value) → Nat
  | [] => 0
  | (_, v) :: kvs => max (depth v) (depthEntries kvs)

end

mutual

/-- The formatter instrumented with a recursion budget: one unit of `fuel`
is spent on each `format_value` call, and `none` is returned if the budget
runs out.  Otherwise identical to `formatValue`. -/
def formatValueFuel (indentW maxLen : Nat) : Nat → Value → Nat → Option String
  | 0, _, _ => none
  | fuel + 1, .obj kvs, ci =>
      if kvs.isEmpty then some "\x7b\x7d"
      else (objLinesFuel indentW maxLen fuel ci kvs).map
        (fun ls => joinSep "\n" ("\x7b" :: ls ++ [spaces ci ++ "\x7d"]))
  | fuel + 1, .arr es, ci =>
      if es.isEmpty then some "[]"
      else if es.all isScalar ∧ (dumpsList es).length ≤ maxLen then some (dumpsList es)
      else (arrLinesFuel indentW maxLen fuel ci es).map
        (fun ls => joinSep "\n" ("[" :: ls ++ [spaces ci ++ "]"]))
  | _ + 1, v, _ => some (dumpScalar v)

/-- Budgeted counterpart of `arrLines`. -/
def arrLinesFuel (indentW maxLen : Nat) (fuel ci : Nat) : List Value → Option (List String)
  | [] => some []
  | v :: rest =>
      match formatValueFuel indentW maxLen fuel v (ci + indentW),
          arrLinesFuel indentW maxLen fuel ci rest with
      | some fv, some ls =>
          some ((spaces (ci + indentW) ++ fv ++ (if rest.isEmpty then "" else ",")) :: ls)
      | _, _ => none

/-- Budgeted counterpart of `objLines`. -/
def objLinesFuel (indentW maxLen : Nat) (fuel ci : Nat) :
    List (String × Value) → Option (List String)
  | [] => some []
  | (k, v) :: rest =>
      match formatValueFuel indentW maxLen fuel v (ci + indentW),
          objLinesFuel indentW maxLen fuel ci rest with
      | some fv, some ls =>
          some ((spaces (ci + indentW) ++ encodeStr true k ++ ": " ++
            entryOverride maxLen ci k v fv ++ (if rest.isEmpty then "" else ",")) :: ls)
      | _, _ => none

end

/-! ### Claim theorems -/
/-- Keys of a mapping value, in order; `[]` for any other value. -/
def objKeys : Value → List String
  | .obj kvs => kvs.map Prod.fst
  | _ => []

/-- Split a character stream into its lines at each line feed. -/
def splitLines : List Char → List (List Char)
  | [] => [[]]
  | c :: cs =>
      if c = '\n' then [] :: splitLines cs
      else
        match splitLines cs with
        | [] => [[c]]
        | l :: ls => (c :: l) :: ls

example : format_json_prettier (.obj [("a", .arr [.num 1, .num 2, .num 3])]) 2 80 =
    "\x7b\n  \"a\": [1, 2, 3]\n\x7d" := by decide

example : format_json_prettier (.obj []) 2 80 = "\x7b\x7d" := rfl

example : format_json_prettier (.str "héllo") 2 80 = "\"héllo\"" := by decide

example : format_json_prettier (.obj [("é", .null)]) 2 80 = "\x7b\n  \"\\u00e9\": null\n\x7d" := by
  decide

example : format_json_prettier (.num (-12)) 2 80 = "-12" := by decide

example : parse "[1, 2]" = some (.arr [.num 1, .num 2]) := rfl

example : parse " \x7b\"a\": [1, true, \"x\"], \"b\": \x7b\x7d\x7d " =
    some (.obj [("a", .arr [.num 1, .bool true, .str "x"]), ("b", .obj [])]) := rfl

example : parse "1.5" = none := rfl

example : parse "\"\\ud83d\\ude00\"" = some (.str "😀") := rfl

example :
    parse (format_json_prettier (.obj [("k", .arr [.obj [("x", .num (-3))], .null])]) 2 80) =
    some (.obj [("k", .arr [.obj [("x", .num (-3))], .null])]) := rfl

/-! ### Basic string and whitespace lemmas -/
theorem mk_data (s : String) : String.mk s.data = s := by
  cases s
  rfl

theorem length_eq_data (s : String) : s.length = s.data.length := rfl

theorem skipWs_length : ∀ cs : List Char, (skipWs cs).length ≤ cs.length
  | [] => Nat.le_refl _
  | c :: cs => by
      simp only [skipWs]
      split
      · exact (skipWs_length cs).trans (Nat.le_succ _)
      · exact Nat.le_refl _

theorem skipWs_not_ws {c : Char} (cs : List Char) (h : isWs c = false) :
    skipWs (c :: cs) = c :: cs := by
  simp [skipWs, h]

theorem skipWs_ws {c : Char} (cs : List Char) (h : isWs c = true) :
    skipWs (c :: cs) = skipWs cs := by
  simp [skipWs, h]

theorem skipWs_spaces (n : Nat) (cs : List Char) :
    skipWs ((spaces n).data ++ cs) = skipWs cs := by
  show skipWs (List.replicate n ' ' ++ cs) = skipWs cs
  induction n with
  | zero => rfl
  | succ m ih =>
      rw [List.replicate_succ, List.cons_append, skipWs_ws _ (by decide)]
      exact ih

theorem skipWs_newline (cs : List Char) : skipWs ('\n' :: cs) = skipWs cs :=
  skipWs_ws cs (by decide)

theorem numBoundary_headNotDigit {rest : List Char} (h : numBoundary rest = true) :
    headNotDigit rest = true := by
  cases rest with
  | nil => rfl
  | cons c cs =>
      simp [numBoundary] at h
      obtain ⟨⟨⟨h1, h2⟩, h3⟩, h4⟩ := h
      simp [headNotDigit, h1]

theorem numBoundary_intStop {rest : List Char} (h : numBoundary rest = true) :
    intStop rest = true := by
  cases rest with
  | nil => rfl
  | cons c cs =>
      simp [numBoundary] at h
      obtain ⟨⟨⟨h1, h2⟩, h3⟩, h4⟩ := h
      simp [intStop, h2, h3, h4]

theorem digit_enum (c : Char) (h : c.isDigit = true) :
    c ∈ ['0', '1', '2', '3', '4', '5', '6', '7', '8', '9'] := by
  have h1 : 48 ≤ c.toNat ∧ c.toNat ≤ 57 := by
    simp [Char.isDigit] at h
    exact ⟨h.1, h.2⟩
  obtain ⟨hl, hu⟩ := h1
  have h2 : Char.ofNat c.toNat = c := Char.ofNat_toNat c
  interval_cases h3 : c.toNat <;> rw [← h2] <;> decide

theorem digitChar_facts : ∀ m, m < 10 →
    (Char.ofNat (48 + m)).isDigit = true ∧ digitVal (Char.ofNat (48 + m)) = m ∧
      (1 ≤ m → ¬(Char.ofNat (48 + m) = '0')) := by
  decide

theorem parseDigits_spec :
    ∀ (dl rest : List Char) (acc : Nat), (∀ c ∈ dl, c.isDigit = true) →
      headNotDigit rest = true →
      parseDigits (dl ++ rest) acc = (valApp acc dl, rest)
  | [], rest, acc, _, hrest => by
      cases rest with
      | nil => rfl
      | cons c cs =>
          simp [headNotDigit] at hrest
          simp [parseDigits, hrest, valApp]
  | d :: dl, rest, acc, hdl, hrest => by
      have hd : d.isDigit = true := hdl d (List.mem_cons_self _ _)
      simp only [List.cons_append, parseDigits, hd, if_true, List.append_eq]
      rw [parseDigits_spec dl rest (acc * 10 + (d.toNat - 48))
        (fun c hc => hdl c (List.mem_cons_of_mem _ hc)) hrest]
      rfl

theorem natDigitsAux_spec : ∀ (fuel n : Nat), n < fuel →
    (∀ c ∈ natDigitsAux fuel n, c.isDigit = true) ∧
      (∃ b, 0 < b ∧ ∀ acc, valApp acc (natDigitsAux fuel n) = acc * b + n) ∧
      (∃ d dl, natDigitsAux fuel n = d :: dl ∧ d.isDigit = true ∧ (1 ≤ n → ¬(d = '0'))) := by
  intro fuel
  induction fuel with
  | zero => intro n hn; omega
  | succ fuel ih =>
      intro n hn
      by_cases h10 : n < 10
      · have hfacts := digitChar_facts n h10
        refine ⟨?_, ⟨10, by norm_num, ?_⟩, Char.ofNat (48 + n), [], ?_⟩
        · simp only [natDigitsAux, if_pos h10]
          intro c hc
          simp at hc
          rw [hc]
          exact hfacts.1
        · intro acc
          simp only [natDigitsAux, if_pos h10, valApp, List.foldl_cons, List.foldl_nil]
          rw [hfacts.2.1]
        · exact ⟨by simp [natDigitsAux, if_pos h10], hfacts.1, hfacts.2.2⟩
      · have hdiv : n / 10 < fuel := by
          have := Nat.div_lt_self (by omega : 0 < n) (by norm_num : 1 < 10)
          omega
        obtain ⟨ihdig, ⟨b, hb, ihval⟩, d, dl, ihcons, ihd, ihd0⟩ := ih (n / 10) hdiv
        have hmod := digitChar_facts (n % 10) (Nat.mod_lt _ (by norm_num))
        refine ⟨?_, ⟨b * 10, by positivity, ?_⟩, d, dl ++ [Char.ofNat (48 + n % 10)], ?_, ihd, ?_⟩
        · simp only [natDigitsAux, if_neg h10]
          intro c hc
          rcases List.mem_append.mp hc with h | h
          · exact ihdig c h
          · simp at h; rw [h]; exact hmod.1
        · intro acc
          simp only [natDigitsAux, if_neg h10, valApp, List.foldl_append, List.foldl_cons,
            List.foldl_nil]
          have := ihval acc
          simp only [valApp] at this
          rw [this, hmod.2.1]
          have := Nat.div_add_mod n 10
          ring_nf
          omega
        · simp only [natDigitsAux, if_neg h10, ihcons, List.cons_append]
        · intro _
          exact ihd0 (by omega)

/-! ### Number parsing round-trip -/
theorem parseIntFrom_natRepr (n : Nat) (rest : List Char)
    (hnd : headNotDigit rest = true) (hstop : intStop rest = true) :
    parseIntFrom ((natRepr n).data ++ rest) = some (n, rest) := by
  by_cases hn0 : n = 0
  · subst hn0
    rw [show (natRepr 0).data = ['0'] from rfl]
    cases rest with
    | nil => rfl
    | cons c cs =>
        simp [headNotDigit] at hnd
        simp [parseIntFrom, hnd, hstop]
  · obtain ⟨hdig, ⟨b, hb, hval⟩, d, dl, hcons, hd, hd0⟩ :=
      natDigitsAux_spec (n + 1) n (Nat.lt_succ_self n)
    have hdata : (natRepr n).data = natDigitsAux (n + 1) n := rfl
    have hvaln : valApp (d.toNat - 48) dl = n := by
      have h3 := hval 0
      rw [hcons] at h3
      simp only [valApp, List.foldl_cons, Nat.zero_mul, Nat.zero_add, digitVal] at h3 ⊢
      exact h3
    rw [hdata, hcons, List.cons_append]
    simp only [parseIntFrom, hd, if_true, if_neg (hd0 (by omega))]
    rw [parseDigits_spec dl rest (d.toNat - 48)
      (fun c hc => hdig c (by rw [hcons]; exact List.mem_cons_of_mem _ hc)) hnd]
    simp only [hvaln, hstop, if_true]

theorem parseVal_digitHead (fuel : Nat) (d : Char) (hd : d.isDigit = true) (tl : List Char) :
    parseVal (fuel + 1) (d :: tl) =
      (parseIntFrom (d :: tl)).map (fun p => (.num (p.1 : Int), p.2)) := by
  have h := digit_enum d hd
  fin_cases h <;> rfl

theorem parseVal_num (fuel : Nat) (k : Int) (rest : List Char)
    (hb : numBoundary rest = true) :
    parseVal (fuel + 1) ((intRepr k).data ++ rest) = some (.num k, rest) := by
  have hnd := numBoundary_headNotDigit hb
  have hstop := numBoundary_intStop hb
  by_cases hneg : k < 0
  · rw [show intRepr k = "-" ++ natRepr k.natAbs from by simp [intRepr, hneg]]
    rw [String.data_append, show ("-" : String).data = ['-'] from rfl]
    simp only [List.cons_append, List.nil_append]
    rw [show parseVal (fuel + 1) ('-' :: ((natRepr k.natAbs).data ++ rest)) =
      (parseIntFrom ((natRepr k.natAbs).data ++ rest)).map
        (fun p => (.num (-(p.1 : Int)), p.2)) from rfl]
    rw [parseIntFrom_natRepr _ _ hnd hstop]
    simp only [Option.map_some']
    have : -((k.natAbs : Nat) : Int) = k := by omega
    rw [this]
  · rw [show intRepr k = natRepr k.natAbs from by simp [intRepr, hneg]]
    obtain ⟨_, _, d, dl, hcons, hd, _⟩ :=
      natDigitsAux_spec (k.natAbs + 1) k.natAbs (Nat.lt_succ_self _)
    have hdata : (natRepr k.natAbs).data = natDigitsAux (k.natAbs + 1) k.natAbs := rfl
    rw [hdata, hcons, List.cons_append, parseVal_digitHead fuel d hd _,
      ← List.cons_append, ← hcons, ← hdata, parseIntFrom_natRepr _ _ hnd hstop]
    simp only [Option.map_some']
    have : ((k.natAbs : Nat) : Int) = k := by omega
    rw [this]

/-! ### String escaping round-trip -/
theorem hexVal_hexDigitChar : ∀ k, k < 16 → hexVal (hexDigitChar k) = some k := by decide

theorem char_toNat_valid (c : Char) :
    c.toNat < 0xd800 ∨ (0xe000 ≤ c.toNat ∧ c.toNat < 0x110000) := c.valid

theorem hex4_recombine (t : Nat) (h : t < 0x10000) :
    ((t / 4096 % 16 * 16 + t / 256 % 16) * 16 + t / 16 % 16) * 16 + t % 16 = t := by omega

theorem char_toNat_lt (c : Char) : c.toNat < 0x110000 := by
  rcases char_toNat_valid c with h | h
  · omega
  · exact h.2

theorem parseEscape_hex (a b c d : Char) (wa wb wc wd : Nat) (t : List Char)
    (ha : hexVal a = some wa) (hb : hexVal b = some wb) (hc : hexVal c = some wc)
    (hd : hexVal d = some wd) :
    parseEscape ('u' :: a :: b :: c :: d :: t) =
      (if 0xd800 ≤ ((wa * 16 + wb) * 16 + wc) * 16 + wd ∧
          ((wa * 16 + wb) * 16 + wc) * 16 + wd ≤ 0xdbff then
        parseLowSurrogate (((wa * 16 + wb) * 16 + wc) * 16 + wd) t
      else if 0xdc00 ≤ ((wa * 16 + wb) * 16 + wc) * 16 + wd ∧
          ((wa * 16 + wb) * 16 + wc) * 16 + wd ≤ 0xdfff then none
      else (parseStringBody t).map (fun p =>
        (Char.ofNat (((wa * 16 + wb) * 16 + wc) * 16 + wd) :: p.1, p.2))) := by
  simp only [parseEscape, ha, hb, hc, hd]

theorem parseLowSurrogate_hex (hi : Nat) (a b c d : Char) (wa wb wc wd : Nat) (t : List Char)
    (ha : hexVal a = some wa) (hb : hexVal b = some wb) (hc : hexVal c = some wc)
    (hd : hexVal d = some wd) :
    parseLowSurrogate hi ('\\' :: 'u' :: a :: b :: c :: d :: t) =
      (if 0xdc00 ≤ ((wa * 16 + wb) * 16 + wc) * 16 + wd ∧
          ((wa * 16 + wb) * 16 + wc) * 16 + wd ≤ 0xdfff then
        (parseStringBody t).map (fun p =>
          (Char.ofNat (0x10000 + (hi - 0xd800) * 0x400 +
            (((wa * 16 + wb) * 16 + wc) * 16 + wd - 0xdc00)) :: p.1, p.2))
      else none) := by
  simp only [parseLowSurrogate, ha, hb, hc, hd]

theorem parseStringBody_escSeq (ea : Bool) (l : List Char) (rest : List Char) :
    parseStringBody (l.flatMap (escSeq ea) ++ '"' :: rest) = some (l, rest) := by
  induction l with
  | nil => simp [parseStringBody]
  | cons c l ih =>
      simp only [List.flatMap_cons, List.append_assoc]
      by_cases h1 : c = '"'
      · subst h1
        rw [show escSeq ea '"' = ['\\', '"'] from by cases ea <;> rfl]
        simp [parseStringBody, parseEscape, unescape1, ih]
      · by_cases h2 : c = '\\'
        · subst h2
          rw [show escSeq ea '\\' = ['\\', '\\'] from by cases ea <;> rfl]
          simp [parseStringBody, parseEscape, unescape1, ih]
        · by_cases h3 : c = Char.ofNat 8
          · subst h3
            rw [show escSeq ea (Char.ofNat 8) = ['\\', 'b'] from by cases ea <;> rfl]
            simp [parseStringBody, parseEscape, unescape1, ih]
          · by_cases h4 : c = Char.ofNat 12
            · subst h4
              rw [show escSeq ea (Char.ofNat 12) = ['\\', 'f'] from by cases ea <;> rfl]
              simp [parseStringBody, parseEscape, unescape1, ih]
            · by_cases h5 : c = '\n'
              · subst h5
                rw [show escSeq ea '\n' = ['\\', 'n'] from by cases ea <;> rfl]
                simp [parseStringBody, parseEscape, unescape1, ih]
              · by_cases h6 : c = Char.ofNat 13
                · subst h6
                  rw [show escSeq ea (Char.ofNat 13) = ['\\', 'r'] from by cases ea <;> rfl]
                  simp [parseStringBody, parseEscape, unescape1, ih]
                · by_cases h7 : c = '\t'
                  · subst h7
                    rw [show escSeq ea '\t' = ['\\', 't'] from by cases ea <;> rfl]
                    simp [parseStringBody, parseEscape, unescape1, ih]
                  · by_cases h8 : c.toNat < 0x20
                    · rw [show escSeq ea c = '\\' :: 'u' :: hex4 c.toNat from by
                        simp [escSeq, h1, h2, h3, h4, h5, h6, h7, h8]]
                      simp only [hex4, List.cons_append, List.nil_append]
                      rw [show ∀ (t : List Char), parseStringBody ('\\' :: 'u' :: t) =
                          parseEscape ('u' :: t) from fun t => by simp [parseStringBody]]
                      rw [parseEscape_hex _ _ _ _ _ _ _ _ _
                        (hexVal_hexDigitChar _ (Nat.mod_lt _ (by norm_num)))
                        (hexVal_hexDigitChar _ (Nat.mod_lt _ (by norm_num)))
                        (hexVal_hexDigitChar _ (Nat.mod_lt _ (by norm_num)))
                        (hexVal_hexDigitChar _ (Nat.mod_lt _ (by norm_num)))]
                      simp only [hex4_recombine c.toNat (by omega)]
                      rw [if_neg (by omega), if_neg (by omega), ih]
                      simp [Char.ofNat_toNat]
                    · by_cases h9 : ea = true ∧ 0x7e < c.toNat
                      · obtain ⟨hea, h7e⟩ := h9
                        subst hea
                        by_cases h10 : c.toNat < 0x10000
                        · rw [show escSeq true c = '\\' :: 'u' :: hex4 c.toNat from by
                            simp [escSeq, h1, h2, h3, h4, h5, h6, h7, h8, h7e, h10]]
                          simp only [hex4, List.cons_append, List.nil_append]
                          rw [show ∀ (t : List Char), parseStringBody ('\\' :: 'u' :: t) =
                              parseEscape ('u' :: t) from fun t => by simp [parseStringBody]]
                          rw [parseEscape_hex _ _ _ _ _ _ _ _ _
                            (hexVal_hexDigitChar _ (Nat.mod_lt _ (by norm_num)))
                            (hexVal_hexDigitChar _ (Nat.mod_lt _ (by norm_num)))
                            (hexVal_hexDigitChar _ (Nat.mod_lt _ (by norm_num)))
                            (hexVal_hexDigitChar _ (Nat.mod_lt _ (by norm_num)))]
                          simp only [hex4_recombine c.toNat (by omega)]
                          have hvalid := char_toNat_valid c
                          rw [if_neg (by omega), if_neg (by omega), ih]
                          simp [Char.ofNat_toNat]
                        · -- non-BMP: surrogate pair
                          rw [show escSeq true c =
                              '\\' :: 'u' :: hex4 (0xd800 + (c.toNat - 0x10000) / 0x400) ++
                                '\\' :: 'u' :: hex4 (0xdc00 + (c.toNat - 0x10000) % 0x400) from by
                            simp [escSeq, h1, h2, h3, h4, h5, h6, h7, h8, h7e, h10]]
                          have hlt := char_toNat_lt c
                          have hq : (c.toNat - 0x10000) / 0x400 < 0x400 := by omega
                          have hr : (c.toNat - 0x10000) % 0x400 < 0x400 :=
                            Nat.mod_lt _ (by norm_num)
                          simp only [hex4, List.cons_append, List.nil_append, List.append_assoc]
                          rw [show ∀ (t : List Char), parseStringBody ('\\' :: 'u' :: t) =
                              parseEscape ('u' :: t) from fun t => by simp [parseStringBody]]
                          rw [parseEscape_hex _ _ _ _ _ _ _ _ _
                            (hexVal_hexDigitChar _ (Nat.mod_lt _ (by norm_num)))
                            (hexVal_hexDigitChar _ (Nat.mod_lt _ (by norm_num)))
                            (hexVal_hexDigitChar _ (Nat.mod_lt _ (by norm_num)))
                            (hexVal_hexDigitChar _ (Nat.mod_lt _ (by norm_num)))]
                          simp only [hex4_recombine (0xd800 + (c.toNat - 0x10000) / 0x400)
                            (by omega)]
                          rw [if_pos (by omega)]
                          rw [parseLowSurrogate_hex _ _ _ _ _ _ _ _ _ _
                            (hexVal_hexDigitChar _ (Nat.mod_lt _ (by norm_num)))
                            (hexVal_hexDigitChar _ (Nat.mod_lt _ (by norm_num)))
                            (hexVal_hexDigitChar _ (Nat.mod_lt _ (by norm_num)))
                            (hexVal_hexDigitChar _ (Nat.mod_lt _ (by norm_num)))]
                          simp only [hex4_recombine (0xdc00 + (c.toNat - 0x10000) % 0x400)
                            (by omega)]
                          rw [if_pos (by omega), ih]
                          have hcomb : 0x10000 + (0xd800 + (c.toNat - 0x10000) / 0x400 - 0xd800) *
                              0x400 + (0xdc00 + (c.toNat - 0x10000) % 0x400 - 0xdc00) = c.toNat := by
                            have := Nat.div_add_mod (c.toNat - 0x10000) 0x400
                            omega
                          simp only [hcomb]
                          simp [Char.ofNat_toNat]
                      · rw [show escSeq ea c = [c] from by
                          rcases Bool.eq_false_or_eq_true ea with hea | hea
                          · have h7e : ¬(0x7e < c.toNat) := fun hlt => h9 ⟨hea, hlt⟩
                            simp [escSeq, h1, h2, h3, h4, h5, h6, h7, h8, hea, h7e]
                          · simp [escSeq, h1, h2, h3, h4, h5, h6, h7, h8, hea]]
                        simp only [List.cons_append, List.nil_append]
                        rw [show parseStringBody (c :: (l.flatMap (escSeq ea) ++ '"' :: rest)) =
                          (parseStringBody (l.flatMap (escSeq ea) ++ '"' :: rest)).map
                            (fun p => (c :: p.1, p.2)) from by
                          simp [parseStringBody, h1, h2, h8]]
                        rw [ih]
                        rfl

/-! ### Scalar parsing round-trip -/
theorem parseVal_str (fuel : Nat) (s : String) (rest : List Char) :
    parseVal (fuel + 1) ((encodeStr false s).data ++ rest) = some (.str s, rest) := by
  have hdata : (encodeStr false s).data ++ rest =
      '"' :: (s.data.flatMap (escSeq false) ++ '"' :: rest) := by
    show ('"' :: (s.data.flatMap (escSeq false)) ++ ['"']) ++ rest = _
    simp
  rw [hdata]
  rw [show parseVal (fuel + 1) ('"' :: (s.data.flatMap (escSeq false) ++ '"' :: rest)) =
    (parseStringBody (s.data.flatMap (escSeq false) ++ '"' :: rest)).map
      (fun p => (.str ⟨p.1⟩, p.2)) from rfl]
  rw [parseStringBody_escSeq]
  simp [mk_data]

theorem parseVal_scalar (fuel : Nat) (v : Value) (hv : isScalar v = true) (rest : List Char)
    (hb : numBoundary rest = true) :
    parseVal (fuel + 1) ((dumpScalar v).data ++ rest) = some (v, rest) := by
  cases v with
  | null => rfl
  | bool b => cases b <;> rfl
  | num n => exact parseVal_num fuel n rest hb
  | str s => exact parseVal_str fuel s rest
  | arr es => simp [isScalar] at hv
  | obj kvs => simp [isScalar] at hv

/-! ### One-step unfolding lemmas for the parser -/
theorem parseVal_lbracket (fuel : Nat) (X : List Char) :
    parseVal (fuel + 1) ('[' :: X) =
      (match skipWs X with
       | [] => none
       | c2 :: r =>
           if c2 = ']' then some (.arr [], r)
           else (parseElems fuel (c2 :: r)).map (fun p => (.arr p.1, p.2))) := rfl

theorem parseVal_lbrace (fuel : Nat) (X : List Char) :
    parseVal (fuel + 1) (Char.ofNat 123 :: X) =
      (match skipWs X with
       | [] => none
       | c2 :: r =>
           if c2 = Char.ofNat 125 then some (.obj [], r)
           else (parseMembers fuel (c2 :: r)).map (fun p => (.obj p.1, p.2))) := rfl

theorem parseElems_step (fuel : Nat) (cs : List Char) :
    parseElems (fuel + 1) cs =
      (match parseVal fuel cs with
       | none => none
       | some (v, r) =>
           match skipWs r with
           | [] => none
           | c :: r2 =>
               if c = ',' then (parseElems fuel (skipWs r2)).map (fun p => (v :: p.1, p.2))
               else if c = ']' then some ([v], r2)
               else none) := rfl

theorem parseMembers_step (fuel : Nat) (cs : List Char) :
    parseMembers (fuel + 1) cs =
      (match cs with
       | '"' :: cs2 =>
           match parseStringBody cs2 with
           | none => none
           | some (kl, r1) =>
               match skipWs r1 with
               | [] => none
               | c0 :: r2 =>
                   if c0 = ':' then
                     match parseVal fuel (skipWs r2) with
                     | none => none
                     | some (v, r3) =>
                         match skipWs r3 with
                         | [] => none
                         | c :: r4 =>
                             if c = ',' then
                               (parseMembers fuel (skipWs r4)).map
                                 (fun p => ((⟨kl⟩, v) :: p.1, p.2))
                             else if c = Char.ofNat 125 then some ([(⟨kl⟩, v)], r4)
                             else none
                   else none
       | _ => none) := rfl

/-! ### Head-character facts -/
theorem digit_not_special (c : Char) (h : c.isDigit = true) :
    isWs c = false ∧ ¬(c = ']') ∧ ¬(c = Char.ofNat 125) ∧ ¬(c = ',') := by
  have hmem := digit_enum c h
  fin_cases hmem <;> refine ⟨rfl, by decide, by decide, by decide⟩

theorem natDigitsAux_head (n : Nat) :
    ∃ d dl, natDigitsAux (n + 1) n = d :: dl ∧ d.isDigit = true := by
  obtain ⟨_, _, d, dl, hcons, hd, _⟩ := natDigitsAux_spec (n + 1) n (Nat.lt_succ_self n)
  exact ⟨d, dl, hcons, hd⟩

theorem dumpScalar_head (v : Value) (hv : isScalar v = true) :
    ∃ c cs, (dumpScalar v).data = c :: cs ∧ isWs c = false ∧ ¬(c = ']') ∧
      ¬(c = Char.ofNat 125) ∧ ¬(c = ',') := by
  cases v with
  | null => exact ⟨'n', ['u', 'l', 'l'], rfl, rfl, by decide, by decide, by decide⟩
  | bool b =>
      cases b
      · exact ⟨'f', ['a', 'l', 's', 'e'], rfl, rfl, by decide, by decide, by decide⟩
      · exact ⟨'t', ['r', 'u', 'e'], rfl, rfl, by decide, by decide, by decide⟩
  | num n =>
      by_cases hneg : n < 0
      · refine ⟨'-', (natRepr n.natAbs).data, ?_, rfl, by decide, by decide, by decide⟩
        show (intRepr n).data = _
        rw [show intRepr n = "-" ++ natRepr n.natAbs from by simp [intRepr, hneg]]
        rfl
      · obtain ⟨d, dl, hcons, hd⟩ := natDigitsAux_head n.natAbs
        obtain ⟨hw, hrb, hcb, hcm⟩ := digit_not_special d hd
        refine ⟨d, dl, ?_, hw, hrb, hcb, hcm⟩
        show (intRepr n).data = _
        rw [show intRepr n = natRepr n.natAbs from by simp [intRepr, hneg]]
        exact hcons
  | str s => exact ⟨'"', _, rfl, rfl, by decide, by decide, by decide⟩
  | arr es => simp [isScalar] at hv
  | obj kvs => simp [isScalar] at hv

theorem dumpScalar_length_pos (v : Value) (hv : isScalar v = true) :
    1 ≤ (dumpScalar v).length := by
  obtain ⟨c, cs, hdata, _⟩ := dumpScalar_head v hv
  rw [length_eq_data, hdata]
  simp

theorem compactText_eq (es : List Value) (rest : List Char) :
    (joinSep ", " (es.map dumpScalar)).data ++ ']' :: rest = compactText es rest := by
  induction es with
  | nil => rfl
  | cons v vs ih =>
      cases vs with
      | nil => simp [joinSep, compactText]
      | cons w ws =>
          rw [show (v :: w :: ws).map dumpScalar =
            dumpScalar v :: (w :: ws).map dumpScalar from rfl]
          rw [show joinSep ", " (dumpScalar v :: (w :: ws).map dumpScalar) =
            dumpScalar v ++ ", " ++ joinSep ", " ((w :: ws).map dumpScalar) from rfl]
          simp only [String.data_append, List.append_assoc]
          simp only [List.cons_append, List.nil_append]
          rw [ih]
          rfl

theorem dumpsList_data (es : List Value) (rest : List Char) :
    (dumpsList es).data ++ rest = '[' :: compactText es rest := by
  show (("[" ++ joinSep ", " (es.map dumpScalar) ++ "]") : String).data ++ rest = _
  simp only [String.data_append, List.append_assoc]
  simp only [List.cons_append, List.nil_append]
  rw [compactText_eq]

theorem parseVal_lbracket2 (fuel : Nat) (X : List Char) (c2 : Char) (r : List Char)
    (h : skipWs X = c2 :: r) :
    parseVal (fuel + 1) ('[' :: X) =
      (if c2 = ']' then some (.arr [], r)
       else (parseElems fuel (c2 :: r)).map (fun p => (.arr p.1, p.2))) := by
  rw [parseVal_lbracket, h]

theorem parseVal_lbrace2 (fuel : Nat) (X : List Char) (c2 : Char) (r : List Char)
    (h : skipWs X = c2 :: r) :
    parseVal (fuel + 1) (Char.ofNat 123 :: X) =
      (if c2 = Char.ofNat 125 then some (.obj [], r)
       else (parseMembers fuel (c2 :: r)).map (fun p => (.obj p.1, p.2))) := by
  rw [parseVal_lbrace, h]

theorem parseElems_step2 (fuel : Nat) (cs : List Char) (v : Value) (r : List Char)
    (c : Char) (r2 : List Char) (h : parseVal fuel cs = some (v, r))
    (h2 : skipWs r = c :: r2) :
    parseElems (fuel + 1) cs =
      (if c = ',' then (parseElems fuel (skipWs r2)).map (fun p => (v :: p.1, p.2))
       else if c = ']' then some ([v], r2)
       else none) := by
  simp only [parseElems_step, h, h2]

theorem parseMembers_step2 (fuel : Nat) (cs2 kl r1 r2 : List Char) (v : Value)
    (r3 : List Char) (c : Char) (r4 : List Char)
    (h1 : parseStringBody cs2 = some (kl, r1))
    (h2 : skipWs r1 = ':' :: r2)
    (h3 : parseVal fuel (skipWs r2) = some (v, r3))
    (h4 : skipWs r3 = c :: r4) :
    parseMembers (fuel + 1) ('"' :: cs2) =
      (if c = ',' then (parseMembers fuel (skipWs r4)).map (fun p => ((⟨kl⟩, v) :: p.1, p.2))
       else if c = Char.ofNat 125 then some ([(⟨kl⟩, v)], r4)
       else none) := by
  simp only [parseMembers_step, h1, h2, h3, h4]
  simp

theorem compactText_head (es : List Value) (hne : ¬(es = [])) (hsc : ∀ e ∈ es, isScalar e = true)
    (rest : List Char) :
    ∃ c cs, compactText es rest = c :: cs ∧ isWs c = false ∧ ¬(c = ']') ∧
      ¬(c = Char.ofNat 125) := by
  cases es with
  | nil => exact absurd rfl hne
  | cons v vs =>
      obtain ⟨c, cs, hdata, hw, hrb, hcb, _⟩ :=
        dumpScalar_head v (hsc v (List.mem_cons_self _ _))
      cases vs with
      | nil => exact ⟨c, cs ++ ']' :: rest, by simp [compactText, hdata], hw, hrb, hcb⟩
      | cons w ws =>
          exact ⟨c, cs ++ ',' :: ' ' :: compactText (w :: ws) rest,
            by simp [compactText, hdata], hw, hrb, hcb⟩

theorem parseElems_compactText :
    ∀ (es : List Value), ¬(es = []) → (∀ e ∈ es, isScalar e = true) →
      ∀ (rest : List Char) (fuel : Nat), es.length + 1 ≤ fuel →
        parseElems fuel (compactText es rest) = some (es, rest)
  | [], hne, _, _, _, _ => absurd rfl hne
  | v :: vs, _, hsc, rest, fuel, hfuel => by
      obtain ⟨f, rfl⟩ : ∃ f, fuel = f + 1 := ⟨fuel - 1, by omega⟩
      obtain ⟨f2, rfl⟩ : ∃ f2, f = f2 + 1 := ⟨f - 1, by simp at hfuel; omega⟩
      cases vs with
      | nil =>
          rw [show compactText [v] rest = (dumpScalar v).data ++ ']' :: rest from rfl]
          rw [parseElems_step2 (f2 + 1) _ v (']' :: rest) ']' rest
            (parseVal_scalar f2 v (hsc v (List.mem_cons_self _ _)) (']' :: rest) (by rfl))
            (skipWs_not_ws _ (by decide))]
          simp
      | cons w ws =>
          rw [show compactText (v :: w :: ws) rest =
            (dumpScalar v).data ++ ',' :: ' ' :: compactText (w :: ws) rest from rfl]
          rw [parseElems_step2 (f2 + 1) _ v (',' :: ' ' :: compactText (w :: ws) rest) ','
            (' ' :: compactText (w :: ws) rest)
            (parseVal_scalar f2 v (hsc v (List.mem_cons_self _ _)) _ (by rfl))
            (skipWs_not_ws _ (by decide))]
          simp only [if_pos rfl]
          rw [skipWs_ws _ (by decide)]
          obtain ⟨c, cs, hdata, hw, _, _⟩ :=
            compactText_head (w :: ws) (by simp) (fun e he => hsc e (List.mem_cons_of_mem _ he))
            rest
          rw [hdata, skipWs_not_ws _ hw, ← hdata]
          rw [parseElems_compactText (w :: ws) (by simp)
            (fun e he => hsc e (List.mem_cons_of_mem _ he)) rest (f2 + 1)
            (by simp at hfuel ⊢; omega)]
          rfl

theorem parseVal_dumpsList (fuel : Nat) (es : List Value) (hsc : es.all isScalar = true)
    (rest : List Char) (hfuel : es.length + 2 ≤ fuel) :
    parseVal fuel ((dumpsList es).data ++ rest) = some (.arr es, rest) := by
  obtain ⟨f, rfl⟩ : ∃ f, fuel = f + 1 := ⟨fuel - 1, by omega⟩
  rw [dumpsList_data]
  cases es with
  | nil =>
      rw [show compactText [] rest = ']' :: rest from rfl]
      rw [parseVal_lbracket2 f (']' :: rest) ']' rest (skipWs_not_ws _ (by decide))]
      simp
  | cons v vs =>
      have hsc2 : ∀ e ∈ v :: vs, isScalar e = true := by
        intro e he
        exact List.all_eq_true.mp hsc e he
      obtain ⟨c, cs, hdata, hw, hrb, _⟩ := compactText_head (v :: vs) (by simp) hsc2 rest
      rw [show compactText (v :: vs) rest = c :: cs from hdata]
      rw [parseVal_lbracket2 f (c :: cs) c cs (skipWs_not_ws _ hw)]
      rw [if_neg hrb, ← hdata]
      rw [parseElems_compactText (v :: vs) (by simp) hsc2 rest f (by simp at hfuel ⊢; omega)]
      rfl

/-! ### Length lower bounds -/
theorem compactText_length_lb :
    ∀ (es : List Value), (∀ e ∈ es, isScalar e = true) → ∀ (rest : List Char),
      es.length + rest.length + 1 ≤ (compactText es rest).length
  | [], _, rest => by simp [compactText]
  | [v], hsc, rest => by
      have hp := dumpScalar_length_pos v (hsc v (List.mem_cons_self _ _))
      rw [length_eq_data] at hp
      simp only [compactText, List.length_append, List.length_cons, List.length_nil]
      omega
  | v :: w :: ws, hsc, rest => by
      have ih := compactText_length_lb (w :: ws)
        (fun e he => hsc e (List.mem_cons_of_mem _ he)) rest
      have hp := dumpScalar_length_pos v (hsc v (List.mem_cons_self _ _))
      rw [length_eq_data] at hp
      simp only [compactText, List.length_append, List.length_cons, List.length_nil] at ih ⊢
      omega

theorem dumpsList_length_lb (es : List Value) (hsc : ∀ e ∈ es, isScalar e = true) :
    es.length + 2 ≤ (dumpsList es).data.length := by
  have h := compactText_length_lb es hsc []
  have h2 : (dumpsList es).data ++ [] = '[' :: compactText es [] := dumpsList_data es []
  rw [List.append_nil] at h2
  rw [h2]
  simp only [List.length_cons, List.length_nil] at h ⊢
  omega

/-! ### Joined-line text decomposition -/
theorem joinSep_cons (sep a : String) (L : List String) (h : ¬(L = [])) :
    joinSep sep (a :: L) = a ++ sep ++ joinSep sep L := by
  cases L with
  | nil => exact absurd rfl h
  | cons b bs => rfl

theorem arrLines_text (iW mL ci : Nat) :
    ∀ (es : List Value), ¬(es = []) → ∀ (rest : List Char),
      (joinSep "\n" (arrLines iW mL ci es ++ [spaces ci ++ "]"])).data ++ rest =
        (spaces (ci + iW)).data ++ elemsText iW mL ci es rest
  | [], hne, _ => absurd rfl hne
  | [v], _, rest => by
      rw [show arrLines iW mL ci [v] =
        [spaces (ci + iW) ++ formatValue iW mL v (ci + iW) ++ ""] from rfl]
      rw [show ([spaces (ci + iW) ++ formatValue iW mL v (ci + iW) ++ ""] ++
        [spaces ci ++ "]"]) = (spaces (ci + iW) ++ formatValue iW mL v (ci + iW) ++ "") ::
        [spaces ci ++ "]"] from rfl]
      rw [joinSep_cons _ _ _ (by simp)]
      rw [show joinSep "\n" [spaces ci ++ "]"] = spaces ci ++ "]" from rfl]
      simp only [String.data_append, List.append_assoc, String.append_empty]
      simp only [elemsText, List.cons_append, List.nil_append, List.append_assoc]
  | v :: w :: ws, _, rest => by
      have ih := arrLines_text iW mL ci (w :: ws) (by simp) rest
      rw [show arrLines iW mL ci (v :: w :: ws) =
        (spaces (ci + iW) ++ formatValue iW mL v (ci + iW) ++ ",") ::
          arrLines iW mL ci (w :: ws) from rfl]
      rw [List.cons_append, joinSep_cons _ _ _ (by simp)]
      simp only [String.data_append, List.append_assoc]
      rw [ih]
      simp only [elemsText, List.cons_append, List.nil_append, List.append_assoc]

theorem objLines_text (iW mL ci : Nat) :
    ∀ (kvs : List (String × Value)), ¬(kvs = []) → ∀ (rest : List Char),
      (joinSep "\n" (objLines iW mL ci kvs ++ [spaces ci ++ "\x7d"])).data ++ rest =
        (spaces (ci + iW)).data ++ membersText iW mL ci kvs rest
  | [], hne, _ => absurd rfl hne
  | [(k, v)], _, rest => by
      rw [show objLines iW mL ci [(k, v)] =
        [spaces (ci + iW) ++ encodeStr true k ++ ": " ++
          entryOverride mL ci k v (formatValue iW mL v (ci + iW)) ++ ""] from rfl]
      rw [show ([spaces (ci + iW) ++ encodeStr true k ++ ": " ++
          entryOverride mL ci k v (formatValue iW mL v (ci + iW)) ++ ""] ++
        [spaces ci ++ "\x7d"]) = (spaces (ci + iW) ++ encodeStr true k ++ ": " ++
          entryOverride mL ci k v (formatValue iW mL v (ci + iW)) ++ "") ::
        [spaces ci ++ "\x7d"] from rfl]
      rw [joinSep_cons _ _ _ (by simp)]
      rw [show joinSep "\n" [spaces ci ++ "\x7d"] = spaces ci ++ "\x7d" from rfl]
      simp only [String.data_append, List.append_assoc, String.append_empty]
      simp only [membersText, List.cons_append, List.nil_append, List.append_assoc]
  | (k, v) :: (k2, v2) :: kvs, _, rest => by
      have ih := objLines_text iW mL ci ((k2, v2) :: kvs) (by simp) rest
      rw [show objLines iW mL ci ((k, v) :: (k2, v2) :: kvs) =
        (spaces (ci + iW) ++ encodeStr true k ++ ": " ++
          entryOverride mL ci k v (formatValue iW mL v (ci + iW)) ++ ",") ::
          objLines iW mL ci ((k2, v2) :: kvs) from rfl]
      rw [List.cons_append, joinSep_cons _ _ _ (by simp)]
      simp only [String.data_append, List.append_assoc]
      rw [ih]
      simp only [membersText, List.cons_append, List.nil_append, List.append_assoc]

/-! ### Head characters of formatted output -/
theorem formatValue_head (iW mL : Nat) (v : Value) (ci : Nat) :
    ∃ c cs, (formatValue iW mL v ci).data = c :: cs ∧ isWs c = false ∧ ¬(c = ']') ∧
      ¬(c = Char.ofNat 125) ∧ ¬(c = ',') := by
  cases v with
  | null => exact dumpScalar_head .null rfl
  | bool b => exact dumpScalar_head (.bool b) rfl
  | num n => exact dumpScalar_head (.num n) rfl
  | str s => exact dumpScalar_head (.str s) rfl
  | arr es =>
      rw [show formatValue iW mL (.arr es) ci =
        (if es.isEmpty then "[]"
         else if es.all isScalar ∧ (dumpsList es).length ≤ mL then dumpsList es
         else joinSep "\n" ("[" :: arrLines iW mL ci es ++ [spaces ci ++ "]"])) from rfl]
      by_cases h1 : es.isEmpty
      · rw [if_pos h1]
        exact ⟨'[', [']'], rfl, rfl, by decide, by decide, by decide⟩
      · rw [if_neg h1]
        by_cases h2 : es.all isScalar ∧ (dumpsList es).length ≤ mL
        · rw [if_pos h2]
          have hd := dumpsList_data es []
          rw [List.append_nil] at hd
          exact ⟨'[', compactText es [], hd, rfl, by decide, by decide, by decide⟩
        · rw [if_neg h2]
          rw [List.cons_append]
          rw [joinSep_cons "\n" "[" (arrLines iW mL ci es ++ [spaces ci ++ "]"]) (by simp)]
          refine ⟨'[', '\n' ::
            (joinSep "\n" (arrLines iW mL ci es ++ [spaces ci ++ "]"])).data,
            ?_, rfl, by decide, by decide, by decide⟩
          simp only [String.data_append]
          rfl
  | obj kvs =>
      rw [show formatValue iW mL (.obj kvs) ci =
        (if kvs.isEmpty then "\x7b\x7d"
         else joinSep "\n" ("\x7b" :: objLines iW mL ci kvs ++ [spaces ci ++ "\x7d"]))
        from rfl]
      by_cases h1 : kvs.isEmpty
      · rw [if_pos h1]
        exact ⟨Char.ofNat 123, [Char.ofNat 125], rfl, rfl, by decide, by decide, by decide⟩
      · rw [if_neg h1]
        rw [List.cons_append]
        rw [joinSep_cons "\n" "\x7b" (objLines iW mL ci kvs ++ [spaces ci ++ "\x7d"])
          (by simp)]
        refine ⟨Char.ofNat 123, '\n' ::
          (joinSep "\n" (objLines iW mL ci kvs ++ [spaces ci ++ "\x7d"])).data,
          ?_, rfl, by decide, by decide, by decide⟩
        simp only [String.data_append]
        rfl

theorem entryOverride_head (iW mL ci : Nat) (k : String) (v : Value) :
    ∃ c cs, (entryOverride mL ci k v (formatValue iW mL v (ci + iW))).data = c :: cs ∧
      isWs c = false := by
  cases v with
  | null =>
      obtain ⟨c, cs, h, hw, _⟩ := formatValue_head iW mL .null (ci + iW)
      exact ⟨c, cs, h, hw⟩
  | bool b =>
      obtain ⟨c, cs, h, hw, _⟩ := formatValue_head iW mL (.bool b) (ci + iW)
      exact ⟨c, cs, h, hw⟩
  | num n =>
      obtain ⟨c, cs, h, hw, _⟩ := formatValue_head iW mL (.num n) (ci + iW)
      exact ⟨c, cs, h, hw⟩
  | str s =>
      obtain ⟨c, cs, h, hw, _⟩ := formatValue_head iW mL (.str s) (ci + iW)
      exact ⟨c, cs, h, hw⟩
  | obj kvs =>
      obtain ⟨c, cs, h, hw, _⟩ := formatValue_head iW mL (.obj kvs) (ci + iW)
      exact ⟨c, cs, h, hw⟩
  | arr es =>
      rw [show entryOverride mL ci k (.arr es) (formatValue iW mL (.arr es) (ci + iW)) =
        (if es.all isScalar ∧
            ((dumpsList es).length : Int) ≤ (mL : Int) - (ci : Int) - (k.length : Int) - 5
         then dumpsList es else formatValue iW mL (.arr es) (ci + iW)) from rfl]
      by_cases h : es.all isScalar ∧
          ((dumpsList es).length : Int) ≤ (mL : Int) - (ci : Int) - (k.length : Int) - 5
      · rw [if_pos h]
        have hd := dumpsList_data es []
        rw [List.append_nil] at hd
        exact ⟨'[', compactText es [], hd, rfl⟩
      · rw [if_neg h]
        obtain ⟨c, cs, h2, hw, _⟩ := formatValue_head iW mL (.arr es) (ci + iW)
        exact ⟨c, cs, h2, hw⟩

theorem elemsText_head (iW mL ci : Nat) (es : List Value) (hne : ¬(es = []))
    (rest : List Char) :
    ∃ c cs, elemsText iW mL ci es rest = c :: cs ∧ isWs c = false ∧ ¬(c = ']') ∧
      ¬(c = Char.ofNat 125) := by
  cases es with
  | nil => exact absurd rfl hne
  | cons v vs =>
      obtain ⟨c, cs, h, hw, hrb, hcb, _⟩ := formatValue_head iW mL v (ci + iW)
      cases vs with
      | nil =>
          refine ⟨c, cs ++ '\n' :: (spaces ci).data ++ ']' :: rest, ?_, hw, hrb, hcb⟩
          simp [elemsText, h]
      | cons w ws =>
          refine ⟨c, cs ++ ',' :: '\n' :: (spaces (ci + iW)).data ++
            elemsText iW mL ci (w :: ws) rest, ?_, hw, hrb, hcb⟩
          simp [elemsText, h]

theorem membersText_head (iW mL ci : Nat) (kvs : List (String × Value))
    (hne : ¬(kvs = [])) (rest : List Char) :
    ∃ cs, membersText iW mL ci kvs rest = '"' :: cs := by
  cases kvs with
  | nil => exact absurd rfl hne
  | cons kv kvs2 =>
      obtain ⟨k, v⟩ := kv
      cases kvs2 with
      | nil =>
          refine ⟨(k.data.flatMap (escSeq true) ++ ['"']) ++ ':' :: ' ' ::
            (entryOverride mL ci k v (formatValue iW mL v (ci + iW))).data ++
            '\n' :: (spaces ci).data ++ Char.ofNat 125 :: rest, ?_⟩
          simp [membersText, encodeStr]
      | cons kv2 kvs3 =>
          obtain ⟨k2, v2⟩ := kv2
          refine ⟨(k.data.flatMap (escSeq true) ++ ['"']) ++ ':' :: ' ' ::
            (entryOverride mL ci k v (formatValue iW mL v (ci + iW))).data ++
            ',' :: '\n' :: (spaces (ci + iW)).data ++
            membersText iW mL ci ((k2, v2) :: kvs3) rest, ?_⟩
          simp [membersText, encodeStr]

/-! ### The main round-trip: parsing formatted output -/
theorem spaces_data_length (n : Nat) : (spaces n).data.length = n := by
  simp [spaces]

theorem formatValue_length_pos (iW mL : Nat) (v : Value) (ci : Nat) :
    1 ≤ (formatValue iW mL v ci).data.length := by
  obtain ⟨c, cs, h, _⟩ := formatValue_head iW mL v ci
  rw [h]
  simp

mutual

theorem parseVal_formatValue (iW mL : Nat) :
    ∀ (v : Value) (ci : Nat) (rest : List Char) (fuel : Nat),
      numBoundary rest = true →
      2 * ((formatValue iW mL v ci).data ++ rest).length + 2 ≤ fuel →
      parseVal fuel ((formatValue iW mL v ci).data ++ rest) = some (v, rest)
  | .null, ci, rest, fuel, hb, hf => by
      obtain ⟨f, rfl⟩ : ∃ f, fuel = f + 1 := ⟨fuel - 1, by omega⟩
      exact parseVal_scalar f .null rfl rest hb
  | .bool b, ci, rest, fuel, hb, hf => by
      obtain ⟨f, rfl⟩ : ∃ f, fuel = f + 1 := ⟨fuel - 1, by omega⟩
      exact parseVal_scalar f (.bool b) rfl rest hb
  | .num n, ci, rest, fuel, hb, hf => by
      obtain ⟨f, rfl⟩ : ∃ f, fuel = f + 1 := ⟨fuel - 1, by omega⟩
      exact parseVal_scalar f (.num n) rfl rest hb
  | .str s2, ci, rest, fuel, hb, hf => by
      obtain ⟨f, rfl⟩ : ∃ f, fuel = f + 1 := ⟨fuel - 1, by omega⟩
      exact parseVal_scalar f (.str s2) rfl rest hb
  | .arr [], ci, rest, fuel, hb, hf => by
      obtain ⟨f, rfl⟩ : ∃ f, fuel = f + 1 := ⟨fuel - 1, by omega⟩
      rw [show (formatValue iW mL (.arr []) ci).data ++ rest = '[' :: ']' :: rest from rfl]
      rw [parseVal_lbracket2 f (']' :: rest) ']' rest (skipWs_not_ws _ (by decide))]
      simp
  | .arr (e :: es2), ci, rest, fuel, hb, hf => by
      obtain ⟨f, rfl⟩ : ∃ f, fuel = f + 1 := ⟨fuel - 1, by omega⟩
      by_cases h2 : (e :: es2).all isScalar = true ∧ (dumpsList (e :: es2)).length ≤ mL
      · have heq : formatValue iW mL (.arr (e :: es2)) ci = dumpsList (e :: es2) := by
          rw [show formatValue iW mL (.arr (e :: es2)) ci =
            (if (e :: es2).isEmpty then "[]"
             else if (e :: es2).all isScalar ∧ (dumpsList (e :: es2)).length ≤ mL then
               dumpsList (e :: es2)
             else joinSep "\n" (("[" :: arrLines iW mL ci (e :: es2)) ++
               [spaces ci ++ "]"])) from rfl]
          rw [if_neg (by simp), if_pos h2]
        rw [heq]
        apply parseVal_dumpsList (f + 1) (e :: es2) h2.1 rest
        have hlb := dumpsList_length_lb (e :: es2)
          (fun x hx => List.all_eq_true.mp h2.1 x hx)
        rw [heq] at hf
        simp only [List.length_append] at hf
        omega
      · have heq : formatValue iW mL (.arr (e :: es2)) ci =
            joinSep "\n" (("[" :: arrLines iW mL ci (e :: es2)) ++ [spaces ci ++ "]"]) := by
          rw [show formatValue iW mL (.arr (e :: es2)) ci =
            (if (e :: es2).isEmpty then "[]"
             else if (e :: es2).all isScalar ∧ (dumpsList (e :: es2)).length ≤ mL then
               dumpsList (e :: es2)
             else joinSep "\n" (("[" :: arrLines iW mL ci (e :: es2)) ++
               [spaces ci ++ "]"])) from rfl]
          rw [if_neg (by simp), if_neg h2]
        have hdec : (formatValue iW mL (.arr (e :: es2)) ci).data ++ rest =
            '[' :: '\n' :: ((spaces (ci + iW)).data ++
              elemsText iW mL ci (e :: es2) rest) := by
          rw [heq, List.cons_append,
            joinSep_cons "\n" "[" (arrLines iW mL ci (e :: es2) ++ [spaces ci ++ "]"])
              (by simp)]
          simp only [String.data_append, List.append_assoc]
          rw [arrLines_text iW mL ci (e :: es2) (by simp) rest]
          rfl
        obtain ⟨c, cs, hET, hw, hrb, hcb⟩ :=
          elemsText_head iW mL ci (e :: es2) (by simp) rest
        have hskip : skipWs ('\n' :: ((spaces (ci + iW)).data ++
            elemsText iW mL ci (e :: es2) rest)) = c :: cs := by
          rw [skipWs_newline, skipWs_spaces, hET, skipWs_not_ws _ hw]
        rw [hdec, parseVal_lbracket2 f _ c cs hskip, if_neg hrb, ← hET]
        rw [hdec] at hf
        simp only [List.length_cons, List.length_append, spaces_data_length] at hf
        rw [parseElems_elemsText iW mL ci (e :: es2) (by simp) rest f (by omega)]
        rfl
  | .obj [], ci, rest, fuel, hb, hf => by
      obtain ⟨f, rfl⟩ : ∃ f, fuel = f + 1 := ⟨fuel - 1, by omega⟩
      rw [show (formatValue iW mL (.obj []) ci).data ++ rest =
        Char.ofNat 123 :: Char.ofNat 125 :: rest from rfl]
      rw [parseVal_lbrace2 f (Char.ofNat 125 :: rest) (Char.ofNat 125) rest
        (skipWs_not_ws _ (by decide))]
      simp
  | .obj ((k, v) :: kvs2), ci, rest, fuel, hb, hf => by
      obtain ⟨f, rfl⟩ : ∃ f, fuel = f + 1 := ⟨fuel - 1, by omega⟩
      have heq : formatValue iW mL (.obj ((k, v) :: kvs2)) ci =
          joinSep "\n" (("\x7b" :: objLines iW mL ci ((k, v) :: kvs2)) ++
            [spaces ci ++ "\x7d"]) := by
        rw [show formatValue iW mL (.obj ((k, v) :: kvs2)) ci =
          (if ((k, v) :: kvs2).isEmpty then "\x7b\x7d"
           else joinSep "\n" (("\x7b" :: objLines iW mL ci ((k, v) :: kvs2)) ++
             [spaces ci ++ "\x7d"])) from rfl]
        rw [if_neg (by simp)]
      have hdec : (formatValue iW mL (.obj ((k, v) :: kvs2)) ci).data ++ rest =
          Char.ofNat 123 :: '\n' :: ((spaces (ci + iW)).data ++
            membersText iW mL ci ((k, v) :: kvs2) rest) := by
        rw [heq, List.cons_append,
          joinSep_cons "\n" "\x7b" (objLines iW mL ci ((k, v) :: kvs2) ++
            [spaces ci ++ "\x7d"]) (by simp)]
        simp only [String.data_append, List.append_assoc]
        rw [objLines_text iW mL ci ((k, v) :: kvs2) (by simp) rest]
        rfl
      obtain ⟨cs, hMT⟩ := membersText_head iW mL ci ((k, v) :: kvs2) (by simp) rest
      have hskip : skipWs ('\n' :: ((spaces (ci + iW)).data ++
          membersText iW mL ci ((k, v) :: kvs2) rest)) = '"' :: cs := by
        rw [skipWs_newline, skipWs_spaces, hMT, skipWs_not_ws _ (by decide)]
      rw [hdec, parseVal_lbrace2 f _ '"' cs hskip, if_neg (by decide), ← hMT]
      rw [hdec] at hf
      simp only [List.length_cons, List.length_append, spaces_data_length] at hf
      rw [parseMembers_membersText iW mL ci ((k, v) :: kvs2) (by simp) rest f (by omega)]
      rfl
termination_by v ci rest fuel hb hf => (sizeOf v, 0)

theorem parseElems_elemsText (iW mL ci : Nat) :
    ∀ (es : List Value), ¬(es = []) → ∀ (rest : List Char) (fuel : Nat),
      2 * (elemsText iW mL ci es rest).length + 3 ≤ fuel →
      parseElems fuel (elemsText iW mL ci es rest) = some (es, rest)
  | [], hne, _, _, _ => absurd rfl hne
  | [v], _, rest, fuel, hf => by
      obtain ⟨f, rfl⟩ : ∃ f, fuel = f + 1 := ⟨fuel - 1, by omega⟩
      have hdec : elemsText iW mL ci [v] rest =
          (formatValue iW mL v (ci + iW)).data ++
            ('\n' :: ((spaces ci).data ++ ']' :: rest)) := by
        simp [elemsText]
      have hskip : skipWs ('\n' :: ((spaces ci).data ++ ']' :: rest)) = ']' :: rest := by
        rw [skipWs_newline, skipWs_spaces, skipWs_not_ws _ (by decide)]
      rw [hdec] at hf ⊢
      simp only [List.length_append, List.length_cons, spaces_data_length] at hf
      rw [parseElems_step2 f _ v _ ']' rest
        (parseVal_formatValue iW mL v (ci + iW)
          ('\n' :: ((spaces ci).data ++ ']' :: rest)) f rfl
          (by simp only [List.length_append, List.length_cons, spaces_data_length]; omega))
        hskip]
      simp
  | v :: w :: ws, _, rest, fuel, hf => by
      obtain ⟨f, rfl⟩ : ∃ f, fuel = f + 1 := ⟨fuel - 1, by omega⟩
      have hdec : elemsText iW mL ci (v :: w :: ws) rest =
          (formatValue iW mL v (ci + iW)).data ++
            (',' :: '\n' :: ((spaces (ci + iW)).data ++
              elemsText iW mL ci (w :: ws) rest)) := by
        simp [elemsText]
      obtain ⟨c, cs, hET, hw, _, _⟩ := elemsText_head iW mL ci (w :: ws) (by simp) rest
      have hskip : skipWs (',' :: '\n' :: ((spaces (ci + iW)).data ++
          elemsText iW mL ci (w :: ws) rest)) =
          ',' :: ('\n' :: ((spaces (ci + iW)).data ++
            elemsText iW mL ci (w :: ws) rest)) :=
        skipWs_not_ws _ (by decide)
      rw [hdec] at hf ⊢
      simp only [List.length_append, List.length_cons, spaces_data_length] at hf
      rw [parseElems_step2 f _ v _ ',' _
        (parseVal_formatValue iW mL v (ci + iW)
          (',' :: '\n' :: ((spaces (ci + iW)).data ++
            elemsText iW mL ci (w :: ws) rest)) f rfl
          (by simp only [List.length_append, List.length_cons, spaces_data_length]; omega))
        hskip]
      rw [if_pos rfl]
      have hskip2 : skipWs ('\n' :: ((spaces (ci + iW)).data ++
          elemsText iW mL ci (w :: ws) rest)) = elemsText iW mL ci (w :: ws) rest := by
        rw [skipWs_newline, skipWs_spaces, hET, skipWs_not_ws _ hw]
      rw [hskip2]
      rw [parseElems_elemsText iW mL ci (w :: ws) (by simp) rest f (by
        rw [hET]
        rw [hET] at hf
        simp only [List.length_cons] at hf ⊢
        omega)]
      rfl
termination_by es hne rest fuel hf => (sizeOf es, 0)

theorem parseMembers_membersText (iW mL ci : Nat) :
    ∀ (kvs : List (String × Value)), ¬(kvs = []) → ∀ (rest : List Char) (fuel : Nat),
      2 * (membersText iW mL ci kvs rest).length + 3 ≤ fuel →
      parseMembers fuel (membersText iW mL ci kvs rest) = some (kvs, rest)
  | [], hne, _, _, _ => absurd rfl hne
  | [(k, v)], _, rest, fuel, hf => by
      obtain ⟨f, rfl⟩ : ∃ f, fuel = f + 1 := ⟨fuel - 1, by omega⟩
      have hdec : membersText iW mL ci [(k, v)] rest =
          '"' :: (k.data.flatMap (escSeq true) ++ '"' :: ':' :: ' ' ::
            ((entryOverride mL ci k v (formatValue iW mL v (ci + iW))).data ++
              ('\n' :: ((spaces ci).data ++ Char.ofNat 125 :: rest)))) := by
        simp [membersText, encodeStr]
      have htail : numBoundary ('\n' :: ((spaces ci).data ++ Char.ofNat 125 :: rest)) =
          true := rfl
      have hentry : parseVal f
          ((entryOverride mL ci k v (formatValue iW mL v (ci + iW))).data ++
            ('\n' :: ((spaces ci).data ++ Char.ofNat 125 :: rest))) =
          some (v, '\n' :: ((spaces ci).data ++ Char.ofNat 125 :: rest)) := by
        apply parseMembers_entry iW mL ci k v _ f htail
        rw [hdec] at hf
        simp only [List.length_append, List.length_cons, spaces_data_length] at hf ⊢
        omega
      obtain ⟨ce, cse, hE, hwE⟩ := entryOverride_head iW mL ci k v
      have hskip3 : skipWs
          ((entryOverride mL ci k v (formatValue iW mL v (ci + iW))).data ++
            ('\n' :: ((spaces ci).data ++ Char.ofNat 125 :: rest))) =
          (entryOverride mL ci k v (formatValue iW mL v (ci + iW))).data ++
            ('\n' :: ((spaces ci).data ++ Char.ofNat 125 :: rest)) := by
        rw [hE, List.cons_append, skipWs_not_ws _ hwE]
      rw [hdec]
      rw [parseMembers_step2 f _ k.data _ (' ' ::
          ((entryOverride mL ci k v (formatValue iW mL v (ci + iW))).data ++
            ('\n' :: ((spaces ci).data ++ Char.ofNat 125 :: rest)))) v _
          (Char.ofNat 125) rest
        (parseStringBody_escSeq true k.data _)
        (skipWs_not_ws _ (by decide))
        (by rw [skipWs_ws _ (by decide), hskip3]; exact hentry)
        (by rw [skipWs_newline, skipWs_spaces, skipWs_not_ws _ (by decide)])]
      rw [if_neg (by decide), if_pos rfl, mk_data]
  | (k, v) :: (k2, v2) :: kvs3, _, rest, fuel, hf => by
      obtain ⟨f, rfl⟩ : ∃ f, fuel = f + 1 := ⟨fuel - 1, by omega⟩
      have hdec : membersText iW mL ci ((k, v) :: (k2, v2) :: kvs3) rest =
          '"' :: (k.data.flatMap (escSeq true) ++ '"' :: ':' :: ' ' ::
            ((entryOverride mL ci k v (formatValue iW mL v (ci + iW))).data ++
              (',' :: '\n' :: ((spaces (ci + iW)).data ++
                membersText iW mL ci ((k2, v2) :: kvs3) rest)))) := by
        simp [membersText, encodeStr]
      have htail : numBoundary (',' :: '\n' :: ((spaces (ci + iW)).data ++
          membersText iW mL ci ((k2, v2) :: kvs3) rest)) = true := rfl
      have hentry : parseVal f
          ((entryOverride mL ci k v (formatValue iW mL v (ci + iW))).data ++
            (',' :: '\n' :: ((spaces (ci + iW)).data ++
              membersText iW mL ci ((k2, v2) :: kvs3) rest))) =
          some (v, ',' :: '\n' :: ((spaces (ci + iW)).data ++
            membersText iW mL ci ((k2, v2) :: kvs3) rest)) := by
        apply parseMembers_entry iW mL ci k v _ f htail
        rw [hdec] at hf
        simp only [List.length_append, List.length_cons, spaces_data_length] at hf ⊢
        omega
      obtain ⟨ce, cse, hE, hwE⟩ := entryOverride_head iW mL ci k v
      have hskip3 : skipWs
          ((entryOverride mL ci k v (formatValue iW mL v (ci + iW))).data ++
            (',' :: '\n' :: ((spaces (ci + iW)).data ++
              membersText iW mL ci ((k2, v2) :: kvs3) rest))) =
          (entryOverride mL ci k v (formatValue iW mL v (ci + iW))).data ++
            (',' :: '\n' :: ((spaces (ci + iW)).data ++
              membersText iW mL ci ((k2, v2) :: kvs3) rest)) := by
        rw [hE, List.cons_append, skipWs_not_ws _ hwE]
      obtain ⟨csM, hMT⟩ := membersText_head iW mL ci ((k2, v2) :: kvs3) (by simp) rest
      rw [hdec]
      rw [parseMembers_step2 f _ k.data _ (' ' ::
          ((entryOverride mL ci k v (formatValue iW mL v (ci + iW))).data ++
            (',' :: '\n' :: ((spaces (ci + iW)).data ++
              membersText iW mL ci ((k2, v2) :: kvs3) rest)))) v _ ','
          ('\n' :: ((spaces (ci + iW)).data ++
            membersText iW mL ci ((k2, v2) :: kvs3) rest))
        (parseStringBody_escSeq true k.data _)
        (skipWs_not_ws _ (by decide))
        (by rw [skipWs_ws _ (by decide), hskip3]; exact hentry)
        (skipWs_not_ws _ (by decide))]
      rw [if_pos rfl]
      have hskip4 : skipWs ('\n' :: ((spaces (ci + iW)).data ++
          membersText iW mL ci ((k2, v2) :: kvs3) rest)) =
          membersText iW mL ci ((k2, v2) :: kvs3) rest := by
        rw [skipWs_newline, skipWs_spaces, hMT, skipWs_not_ws _ (by decide)]
      rw [hskip4]
      rw [parseMembers_membersText iW mL ci ((k2, v2) :: kvs3) (by simp) rest f (by
        rw [hdec] at hf
        simp only [List.length_append, List.length_cons, spaces_data_length] at hf ⊢
        omega)]
      simp [mk_data]
termination_by kvs hne rest fuel hf => (sizeOf kvs, 0)

theorem parseMembers_entry (iW mL ci : Nat) (k : String) :
    ∀ (v : Value) (tail : List Char) (f : Nat), numBoundary tail = true →
      2 * ((entryOverride mL ci k v (formatValue iW mL v (ci + iW))).data ++
        tail).length + 2 ≤ f →
      parseVal f ((entryOverride mL ci k v (formatValue iW mL v (ci + iW))).data ++ tail) =
        some (v, tail)
  | .null, tail, f, htail, hfe => parseVal_formatValue iW mL .null (ci + iW) tail f htail hfe
  | .bool b, tail, f, htail, hfe =>
      parseVal_formatValue iW mL (.bool b) (ci + iW) tail f htail hfe
  | .num n, tail, f, htail, hfe =>
      parseVal_formatValue iW mL (.num n) (ci + iW) tail f htail hfe
  | .str s2, tail, f, htail, hfe =>
      parseVal_formatValue iW mL (.str s2) (ci + iW) tail f htail hfe
  | .obj kvs, tail, f, htail, hfe =>
      parseVal_formatValue iW mL (.obj kvs) (ci + iW) tail f htail hfe
  | .arr es, tail, f, htail, hfe => by
      have hovr : entryOverride mL ci k (.arr es) (formatValue iW mL (.arr es) (ci + iW)) =
          (if es.all isScalar ∧
              ((dumpsList es).length : Int) ≤ (mL : Int) - (ci : Int) - (k.length : Int) - 5
           then dumpsList es else formatValue iW mL (.arr es) (ci + iW)) := rfl
      by_cases h : es.all isScalar = true ∧
          ((dumpsList es).length : Int) ≤ (mL : Int) - (ci : Int) - (k.length : Int) - 5
      · rw [hovr, if_pos h] at hfe ⊢
        apply parseVal_dumpsList f es h.1 tail
        have hlb := dumpsList_length_lb es (fun x hx => List.all_eq_true.mp h.1 x hx)
        simp only [List.length_append] at hfe
        omega
      · rw [hovr, if_neg h] at hfe ⊢
        exact parseVal_formatValue iW mL (.arr es) (ci + iW) tail f htail hfe
termination_by v tail f htail hfe => (sizeOf v, 1)

end

theorem parse_format (v : Value) (iW mL : Nat) :
    parse (format_json_prettier v iW mL) = some v := by
  obtain ⟨c, cs, hdata, hw, _⟩ := formatValue_head iW mL v 0
  have hskip : skipWs (format_json_prettier v iW mL).data =
      (format_json_prettier v iW mL).data := by
    show skipWs (formatValue iW mL v 0).data = (formatValue iW mL v 0).data
    rw [hdata, skipWs_not_ws _ hw]
  have hval : parseVal (2 * (format_json_prettier v iW mL).length + 2)
      (format_json_prettier v iW mL).data = some (v, []) := by
    have h := parseVal_formatValue iW mL v 0 []
      (2 * (format_json_prettier v iW mL).length + 2) rfl
      (by rw [List.append_nil]; exact Nat.le_refl _)
    rw [List.append_nil] at h
    exact h
  unfold parse
  rw [hskip, hval]
  rfl

mutual

theorem formatValueFuel_depth (iW mL : Nat) :
    ∀ (v : Value) (fuel ci : Nat), depth v ≤ fuel →
      formatValueFuel iW mL fuel v ci = some (formatValue iW mL v ci)
  | v, fuel, ci, hd => by
      obtain ⟨f, rfl⟩ : ∃ f, fuel = f + 1 := by
        cases v <;> simp [depth] at hd <;> exact ⟨fuel - 1, by omega⟩
      cases v with
      | null => rfl
      | bool b => rfl
      | num n => rfl
      | str s2 => rfl
      | arr es =>
          have hes : depthList es ≤ f := by simp [depth] at hd; omega
          rw [show formatValueFuel iW mL (f + 1) (.arr es) ci =
            (if es.isEmpty then some "[]"
             else if es.all isScalar ∧ (dumpsList es).length ≤ mL then some (dumpsList es)
             else (arrLinesFuel iW mL f ci es).map
               (fun ls => joinSep "\n" ("[" :: ls ++ [spaces ci ++ "]"]))) from rfl]
          rw [show formatValue iW mL (.arr es) ci =
            (if es.isEmpty then "[]"
             else if es.all isScalar ∧ (dumpsList es).length ≤ mL then dumpsList es
             else joinSep "\n" (("[" :: arrLines iW mL ci es) ++ [spaces ci ++ "]"]))
            from rfl]
          by_cases h1 : es.isEmpty
          · rw [if_pos h1, if_pos h1]
          · rw [if_neg h1, if_neg h1]
            by_cases h2 : es.all isScalar = true ∧ (dumpsList es).length ≤ mL
            · rw [if_pos h2, if_pos h2]
            · rw [if_neg h2, if_neg h2]
              rw [arrLinesFuel_depth iW mL es f ci hes]
              rfl
      | obj kvs =>
          have hkvs : depthEntries kvs ≤ f := by simp [depth] at hd; omega
          rw [show formatValueFuel iW mL (f + 1) (.obj kvs) ci =
            (if kvs.isEmpty then some "\x7b\x7d"
             else (objLinesFuel iW mL f ci kvs).map
               (fun ls => joinSep "\n" ("\x7b" :: ls ++ [spaces ci ++ "\x7d"]))) from rfl]
          rw [show formatValue iW mL (.obj kvs) ci =
            (if kvs.isEmpty then "\x7b\x7d"
             else joinSep "\n" (("\x7b" :: objLines iW mL ci kvs) ++
               [spaces ci ++ "\x7d"])) from rfl]
          by_cases h1 : kvs.isEmpty
          · rw [if_pos h1, if_pos h1]
          · rw [if_neg h1, if_neg h1]
            rw [objLinesFuel_depth iW mL kvs f ci hkvs]
            rfl

theorem arrLinesFuel_depth (iW mL : Nat) :
    ∀ (es : List Value) (fuel ci : Nat), depthList es ≤ fuel →
      arrLinesFuel iW mL fuel ci es = some (arrLines iW mL ci es)
  | [], fuel, ci, _ => rfl
  | v :: rest, fuel, ci, hd => by
      have h1 : depth v ≤ fuel := by simp [depthList] at hd; omega
      have h2 : depthList rest ≤ fuel := by simp [depthList] at hd; omega
      rw [show arrLinesFuel iW mL fuel ci (v :: rest) =
        (match formatValueFuel iW mL fuel v (ci + iW), arrLinesFuel iW mL fuel ci rest with
         | some fv, some ls =>
             some ((spaces (ci + iW) ++ fv ++ (if rest.isEmpty then "" else ",")) :: ls)
         | _, _ => none) from rfl]
      rw [formatValueFuel_depth iW mL v fuel (ci + iW) h1,
        arrLinesFuel_depth iW mL rest fuel ci h2]
      rfl

theorem objLinesFuel_depth (iW mL : Nat) :
    ∀ (kvs : List (String × Value)) (fuel ci : Nat), depthEntries kvs ≤ fuel →
      objLinesFuel iW mL fuel ci kvs = some (objLines iW mL ci kvs)
  | [], fuel, ci, _ => rfl
  | (k, v) :: rest, fuel, ci, hd => by
      have h1 : depth v ≤ fuel := by simp [depthEntries] at hd; omega
      have h2 : depthEntries rest ≤ fuel := by simp [depthEntries] at hd; omega
      rw [show objLinesFuel iW mL fuel ci ((k, v) :: rest) =
        (match formatValueFuel iW mL fuel v (ci + iW), objLinesFuel iW mL fuel ci rest with
         | some fv, some ls =>
             some ((spaces (ci + iW) ++ encodeStr true k ++ ": " ++
               entryOverride mL ci k v fv ++ (if rest.isEmpty then "" else ",")) :: ls)
         | _, _ => none) from rfl]
      rw [formatValueFuel_depth iW mL v fuel (ci + iW) h1,
        objLinesFuel_depth iW mL rest fuel ci h2]
      rfl

end

/-- Claim C2: for every Value built from the JSON-representable primitives,
parsing the string produced by `format_json_prettier` reproduces the value
exactly: `parse (format v) = some v`, for any indent and line-length
options. -/
theorem claim_roundtrip (v : Value) (indent max_line_length : Nat) :
    parse (format_json_prettier v indent max_line_length) = some v :=
  parse_format v indent max_line_length

/-- Claim C3: formatting is idempotent through a parse cycle: re-formatting
the parse of formatted output (with the same options) reproduces the
formatted text, `format (parse (format v)) = format v`. -/
theorem claim_idempotent (v : Value) (indent max_line_length : Nat) :
    Option.map (fun u => format_json_prettier u indent max_line_length)
        (parse (format_json_prettier v indent max_line_length)) =
      some (format_json_prettier v indent max_line_length) := by
  rw [parse_format]
  rfl

/-- Claim C5: the mapping with single key `a` bound to the list 1, 2, 3,
formatted with indent 2 and line length 80, inlines the array, giving
exactly the three lines: open brace; two spaces, quoted key, colon, space,
`[1, 2, 3]`; close brace. -/
theorem claim_example_inline :
    format_json_prettier (.obj [("a", .arr [.num 1, .num 2, .num 3])]) 2 80 =
      "\x7b\n  \"a\": [1, 2, 3]\n\x7d" := by
  decide

/-- Claim C7: mapping keys appear in the formatted output in insertion
order, never reordered or sorted: parsing the output of formatting any
mapping recovers exactly the original key sequence. -/
theorem claim_key_order (entries : List (String × Value)) (indent max_line_length : Nat) :
    Option.map objKeys (parse (format_json_prettier (.obj entries) indent max_line_length)) =
      some (entries.map Prod.fst) := by
  rw [parse_format]
  rfl

/-- Claim C8: the formatter is total on every finite Value and its recursion
depth is the nesting depth of the input: the fuel-instrumented formatter,
which spends one unit per `format_value` call and fails when the budget is
exhausted, succeeds with fuel equal to `depth v` and returns exactly the
output of `formatValue`. -/
theorem claim_total_depth (v : Value) (indent max_line_length ci : Nat) :
    formatValueFuel indent max_line_length (depth v) v ci =
      some (formatValue indent max_line_length v ci) :=
  formatValueFuel_depth indent max_line_length v (depth v) ci (Nat.le_refl _)

/-- Claim C9: the inline test for a scalar-only sequence nested inside
another sequence compares its compact length against `max_line_length`
alone, ignoring the current indentation, so some formatted output contains
a line strictly longer than `max_line_length`: witnessed by a sequence
holding one scalar-only sequence whose compact rendering is exactly 80
characters, indented by two spaces into an 82-character line. -/
theorem claim_line_overflow :
    ∃ v : Value, ∃ l ∈ splitLines (format_json_prettier v 2 80).data, 80 < l.length :=
  ⟨.arr [.arr (List.replicate 20 (.num 10))], by decide⟩

/-- Claim C4: with `max_line_length = 80`, a top-level scalar-only sequence
whose compact rendering is exactly 80 characters is returned as that single
compact line, while one whose compact rendering is 81 characters is
expanded, one element per line with commas on all but the last and the
closing bracket at the current indent (the `arrLines`/`joinSep` form). -/
theorem claim_compact_threshold (es es2 : List Value)
    (h1 : es.all isScalar = true) (h2 : ¬(es = [])) (h3 : (dumpsList es).length = 80)
    (h4 : es2.all isScalar = true) (h5 : ¬(es2 = [])) (h6 : (dumpsList es2).length = 81) :
    format_json_prettier (.arr es) 2 80 = dumpsList es ∧
      format_json_prettier (.arr es2) 2 80 =
        joinSep "\n" (("[" :: arrLines 2 80 0 es2) ++ [spaces 0 ++ "]"]) := by
  have hne : es.isEmpty = false := by
    cases es with
    | nil => exact absurd rfl h2
    | cons a l => rfl
  have hne2 : es2.isEmpty = false := by
    cases es2 with
    | nil => exact absurd rfl h5
    | cons a l => rfl
  constructor
  · show formatValue 2 80 (.arr es) 0 = dumpsList es
    rw [show formatValue 2 80 (.arr es) 0 =
      (if es.isEmpty then "[]"
       else if es.all isScalar ∧ (dumpsList es).length ≤ 80 then dumpsList es
       else joinSep "\n" (("[" :: arrLines 2 80 0 es) ++ [spaces 0 ++ "]"])) from rfl]
    rw [if_neg (by simp [hne]), if_pos ⟨h1, by omega⟩]
  · show formatValue 2 80 (.arr es2) 0 = _
    rw [show formatValue 2 80 (.arr es2) 0 =
      (if es2.isEmpty then "[]"
       else if es2.all isScalar ∧ (dumpsList es2).length ≤ 80 then dumpsList es2
       else joinSep "\n" (("[" :: arrLines 2 80 0 es2) ++ [spaces 0 ++ "]"])) from rfl]
    rw [if_neg (by simp [hne2]), if_neg (by rintro ⟨_, hlen⟩; omega)]

/-- Witness for claim C4 at the 20-element lists whose compact renderings
have lengths exactly 80 and 81. -/
theorem claim_compact_threshold_witness :
    format_json_prettier (.arr (List.replicate 20 (.num 10))) 2 80 =
        dumpsList (List.replicate 20 (.num 10)) ∧
      format_json_prettier (.arr (Value.num 100 :: List.replicate 19 (.num 10))) 2 80 =
        joinSep "\n" (("[" :: arrLines 2 80 0 (Value.num 100 :: List.replicate 19 (.num 10)))
          ++ [spaces 0 ++ "]"]) :=
  claim_compact_threshold (List.replicate 20 (.num 10))
    (Value.num 100 :: List.replicate 19 (.num 10))
    (by decide) (by simp) (by decide) (by decide) (by simp) (by decide)

/-- Claim C6: a mapping entry whose value is a non-empty sequence with at
least one non-scalar element is always rendered in the expanded one-element
per-line form, regardless of how short its compact rendering would be: the
entry text (`entryOverride` applied to the recursively formatted value,
exactly what `objLines` places after the key) equals the expanded
`arrLines`/`joinSep` rendering for every such sequence. -/
theorem claim_nonscalar_expanded (indentW maxLen ci : Nat) (k : String) (es : List Value)
    (hne : ¬(es = [])) (hnon : ¬(es.all isScalar = true)) :
    entryOverride maxLen ci k (.arr es)
        (formatValue indentW maxLen (.arr es) (ci + indentW)) =
      joinSep "\n" (("[" :: arrLines indentW maxLen (ci + indentW) es) ++
        [spaces (ci + indentW) ++ "]"]) := by
  have hne2 : es.isEmpty = false := by
    cases es with
    | nil => exact absurd rfl hne
    | cons a l => rfl
  rw [show entryOverride maxLen ci k (.arr es)
      (formatValue indentW maxLen (.arr es) (ci + indentW)) =
    (if es.all isScalar ∧
        ((dumpsList es).length : Int) ≤ (maxLen : Int) - (ci : Int) - (k.length : Int) - 5
     then dumpsList es else formatValue indentW maxLen (.arr es) (ci + indentW)) from rfl]
  rw [if_neg (fun h => hnon h.1)]
  rw [show formatValue indentW maxLen (.arr es) (ci + indentW) =
    (if es.isEmpty then "[]"
     else if es.all isScalar ∧ (dumpsList es).length ≤ maxLen then dumpsList es
     else joinSep "\n" (("[" :: arrLines indentW maxLen (ci + indentW) es) ++
       [spaces (ci + indentW) ++ "]"])) from rfl]
  rw [if_neg (by simp [hne2]), if_neg (fun h => hnon h.1)]

/-- Witness for claim C6 at a singleton sequence holding an empty mapping,
whose compact rendering would be very short. -/
theorem claim_nonscalar_expanded_witness :
    entryOverride 80 0 "a" (.arr [.obj []]) (formatValue 2 80 (.arr [.obj []]) (0 + 2)) =
      joinSep "\n" (("[" :: arrLines 2 80 (0 + 2) [.obj []]) ++ [spaces (0 + 2) ++ "]"]) :=
  claim_nonscalar_expanded 2 80 0 "a" [.obj []] (by simp) (by decide)

/-- Counterexample to claim C1 as stated: in the mapping binding key `a` to
the 19-element list of tens, the compact rendering (length 76) is used on
the key line even though 76 exceeds the claimed budget
`maxLineLength - currentIndent - indentWidth - length(key) - 5 = 72`, so
the claimed equivalence fails in its only-if direction. -/
theorem claim_inline_iff_counterexample :
    format_json_prettier (.obj [("a", .arr (List.replicate 19 (.num 10)))]) 2 80 =
      "\x7b\n  \"a\": " ++ dumpsList (List.replicate 19 (.num 10)) ++ "\n\x7d" ∧
    (dumpsList (List.replicate 19 (.num 10))).length = 76 ∧
    ¬(((dumpsList (List.replicate 19 (.num 10))).length : Int) ≤
      (80 : Int) - 0 - 2 - 1 - 5) := by
  refine ⟨by decide, by decide, by decide⟩

/-- Claim C1 (amended): for a mapping entry whose value is a non-empty
sequence of scalars, the compact single-line rendering is used in place of
the expanded multi-line form if and only if its length is at most
`max_line_length`.  (The key-aware test in the source subtracts
`current_indent + len(key) + 5` but not the indent width, and it can only
re-select the compact form that the sequence case, whose threshold is
`max_line_length` alone, has already chosen, so it never changes the
output.) -/
theorem claim_inline_iff_amended (indentW maxLen ci : Nat) (k : String) (es : List Value)
    (hne : ¬(es = [])) (hsc : es.all isScalar = true) :
    (entryOverride maxLen ci k (.arr es)
        (formatValue indentW maxLen (.arr es) (ci + indentW)) = dumpsList es) ↔
      (dumpsList es).length ≤ maxLen := by
  have hne2 : es.isEmpty = false := by
    cases es with
    | nil => exact absurd rfl hne
    | cons a l => rfl
  have hovr : entryOverride maxLen ci k (.arr es)
      (formatValue indentW maxLen (.arr es) (ci + indentW)) =
      (if es.all isScalar ∧
          ((dumpsList es).length : Int) ≤ (maxLen : Int) - (ci : Int) - (k.length : Int) - 5
       then dumpsList es else formatValue indentW maxLen (.arr es) (ci + indentW)) := rfl
  have hfmt : formatValue indentW maxLen (.arr es) (ci + indentW) =
      (if es.isEmpty then "[]"
       else if es.all isScalar ∧ (dumpsList es).length ≤ maxLen then dumpsList es
       else joinSep "\n" (("[" :: arrLines indentW maxLen (ci + indentW) es) ++
         [spaces (ci + indentW) ++ "]"])) := rfl
  constructor
  · intro heq
    by_cases hin : es.all isScalar = true ∧
        ((dumpsList es).length : Int) ≤ (maxLen : Int) - (ci : Int) - (k.length : Int) - 5
    · have h := hin.2
      omega
    · rw [hovr, if_neg hin, hfmt, if_neg (by simp [hne2])] at heq
      by_cases hfit : es.all isScalar = true ∧ (dumpsList es).length ≤ maxLen
      · exact hfit.2
      · exfalso
        rw [if_neg hfit] at heq
        have hdata := congrArg String.data heq
        rw [List.cons_append,
          joinSep_cons "\n" "[" (arrLines indentW maxLen (ci + indentW) es ++
            [spaces (ci + indentW) ++ "]"]) (by simp)] at hdata
        have hdl : (dumpsList es).data = '[' :: compactText es [] := by
          have h := dumpsList_data es []
          rwa [List.append_nil] at h
        obtain ⟨c, cs, hct, hw, _, _⟩ :=
          compactText_head es hne (fun e he => List.all_eq_true.mp hsc e he) []
        rw [hdl, hct] at hdata
        simp only [String.data_append] at hdata
        simp only [List.cons_append, List.nil_append] at hdata
        injection hdata with _ hdata2
        injection hdata2 with hc _
        rw [← hc] at hw
        exact absurd hw (by decide)
  · intro hlen
    by_cases hin : es.all isScalar = true ∧
        ((dumpsList es).length : Int) ≤ (maxLen : Int) - (ci : Int) - (k.length : Int) - 5
    · rw [hovr, if_pos hin]
    · rw [hovr, if_neg hin, hfmt, if_neg (by simp [hne2]), if_pos ⟨hsc, hlen⟩]

/-- Witness for the amended claim C1 at the singleton list of one number. -/
theorem claim_inline_iff_amended_witness :
    (entryOverride 80 0 "a" (.arr [.num 1]) (formatValue 2 80 (.arr [.num 1]) (0 + 2)) =
        dumpsList [.num 1]) ↔ (dumpsList [.num 1]).length ≤ 80 :=
  claim_inline_iff_amended 2 80 0 "a" [.num 1] (by simp) (by decide)

/-- Claim C10: keys and string values are escaped asymmetrically.  For any
non-ASCII basic-plane character `c` (code point above 0x7e and below
0x10000), formatting a mapping whose key and string value are both the
one-character string `c` emits the key as a `\\uXXXX` escape (lowercase hex
of the code point) while the value keeps the character literally: the
output is open brace, newline, two spaces, quoted `\\u` escape of `c`,
colon, space, the character `c` bare inside quotes, newline, close brace.
(A non-BMP character differs only in using a surrogate-pair of `\\uXXXX`
escapes in the key.) -/
theorem claim_escape_asymmetry (c : Char) (h1 : 0x7e < c.toNat) (h2 : c.toNat < 0x10000) :
    format_json_prettier (.obj [(String.singleton c, .str (String.singleton c))]) 2 80 =
      ⟨[Char.ofNat 123, '\n', ' ', ' ', '"', '\\', 'u'] ++ hex4 c.toNat ++
        ['"', ':', ' ', '"', c, '"', '\n', Char.ofNat 125]⟩ := by
  have hq1 : ¬(c = '"') := fun h => absurd h1 (by rw [h]; decide)
  have hq2 : ¬(c = '\\') := fun h => absurd h1 (by rw [h]; decide)
  have hq3 : ¬(c = Char.ofNat 8) := fun h => absurd h1 (by rw [h]; decide)
  have hq4 : ¬(c = Char.ofNat 12) := fun h => absurd h1 (by rw [h]; decide)
  have hq5 : ¬(c = '\n') := fun h => absurd h1 (by rw [h]; decide)
  have hq6 : ¬(c = Char.ofNat 13) := fun h => absurd h1 (by rw [h]; decide)
  have hq7 : ¬(c = '\t') := fun h => absurd h1 (by rw [h]; decide)
  have hq8 : ¬(c.toNat < 0x20) := by omega
  have hesc_t : escSeq true c = '\\' :: 'u' :: hex4 c.toNat := by
    simp [escSeq, hq1, hq2, hq3, hq4, hq5, hq6, hq7, hq8, h1, h2]
  have hesc_f : escSeq false c = [c] := by
    simp [escSeq, hq1, hq2, hq3, hq4, hq5, hq6, hq7, hq8]
  apply String.ext
  show (formatValue 2 80 (.obj [(String.singleton c, .str (String.singleton c))]) 0).data = _
  rw [show formatValue 2 80 (.obj [(String.singleton c, .str (String.singleton c))]) 0 =
    joinSep "\n" (("\x7b" :: objLines 2 80 0 [(String.singleton c,
      .str (String.singleton c))]) ++ [spaces 0 ++ "\x7d"]) from rfl]
  rw [show objLines 2 80 0 [(String.singleton c, .str (String.singleton c))] =
    [spaces (0 + 2) ++ encodeStr true (String.singleton c) ++ ": " ++
      encodeStr false (String.singleton c) ++ ""] from rfl]
  rw [show ∀ (a b : String), joinSep "\n" (("\x7b" :: [a]) ++ [b]) =
    "\x7b" ++ "\n" ++ (a ++ "\n" ++ b) from fun a b => rfl]
  simp only [String.data_append, String.append_empty]
  rw [show (encodeStr true (String.singleton c)).data =
    ('"' :: (escSeq true c ++ [])) ++ ['"'] from rfl]
  rw [show (encodeStr false (String.singleton c)).data =
    ('"' :: (escSeq false c ++ [])) ++ ['"'] from rfl]
  rw [hesc_t, hesc_f]
  simp [spaces]

/-- Witness for claim C10 at the character `é` (code point 0xe9). -/
theorem claim_escape_asymmetry_witness :
    format_json_prettier (.obj [(String.singleton 'é', .str (String.singleton 'é'))]) 2 80 =
      ⟨[Char.ofNat 123, '\n', ' ', ' ', '"', '\\', 'u'] ++ hex4 'é'.toNat ++
        ['"', ':', ' ', '"', 'é', '"', '\n', Char.ofNat 125]⟩ :=
  claim_escape_asymmetry 'é' (by decide) (by decide)

end FormatJson

